import Mathlib

/-!
Shallow embedding of `app.py` (repository `random-class`): a two-pass,
regex-based rewriter of CSS class names and element IDs.

Strings are modelled as `List Char`.  Each regular expression of the source
is modelled as an explicit matcher function with Python `re` semantics:
scanning moves left to right, matches are non-overlapping, greedy character
classes take the maximal run (all character classes used by the source are
followed by a character outside the class, so no backtracking arises), and
the pattern character classes are restricted to ASCII (the source never
relies on the non-ASCII part of Python's \s or \w).  Scanning functions
take a fuel argument equal to the length of the input so that every
definition is structurally recursive and computable; fuel-independence is
proved once and clean unfolding lemmas are derived from it.
-/

namespace RandomClass

/-- Quote characters accepted by the patterns: the regex class for a double
or single quote. -/
def isQuoteC (c : Char) : Bool := c = '"' || c = '\''

/-- Word characters for Python's word-boundary assertion (ASCII `\w`). -/
def isWordC (c : Char) : Bool := c.isAlphanum || c = '_'

/-- Python word boundary before a word character, given the previous
character (`none` at the start of the string).  Every pattern of the source
that uses the boundary assertion places it before a word character
( `q` / `g` ), so the boundary holds exactly when the previous character is
absent or not a word character. -/
def isBoundary : Option Char → Bool
  | none => true
  | some c => !(isWordC c)

/-- CSS identifier characters: the regex class `[a-zA-Z0-9_-]`. -/
def isIdentC (c : Char) : Bool := c.isAlphanum || c = '_' || c = '-'

/-- Trailing characters accepted after a CSS identifier: ASCII whitespace
(Python `\s`) or one of `{`, `:`, `,`. -/
def isTrailC (c : Char) : Bool :=
  c = ' ' || c = '\t' || c = '\n' || c = '\r' || c = '\x0b' || c = '\x0c' ||
  c = '{' || c = ':' || c = ','

/-- Strip the literal prefix `p` from `cs`: matching of a `re.escape`d
string inside a pattern. -/
def stripP : List Char → List Char → Option (List Char)
  | [], cs => some cs
  | _ :: _, [] => none
  | p :: ps, c :: cs => if c = p then stripP ps cs else none

theorem stripP_eq_some : ∀ (p cs r : List Char), stripP p cs = some r ↔ cs = p ++ r := by
  intro p
  induction p with
  | nil => intro cs r; simp [stripP]
  | cons a ps ih =>
    intro cs r
    cases cs with
    | nil => simp [stripP]
    | cons c cs =>
      by_cases h : c = a
      · subst h
        simp only [stripP, if_pos rfl, List.cons_append, List.cons.injEq, true_and]
        exact ih cs r
      · simp [stripP, h]

theorem stripP_append (p r : List Char) : stripP p (p ++ r) = some r :=
  (stripP_eq_some p (p ++ r) r).mpr rfl

theorem stripP_none_iff (p cs : List Char) :
    stripP p cs = none ↔ ∀ r, cs ≠ p ++ r := by
  constructor
  · intro h r hr
    rw [← stripP_eq_some p cs r] at hr
    rw [h] at hr
    exact Option.noConfusion hr
  · intro h
    cases hs : stripP p cs with
    | none => rfl
    | some r => exact absurd ((stripP_eq_some p cs r).mp hs) (h r)

/-- Matchers for `re.findall`: `m cs = some (x, k)` means the pattern
matches a prefix of `cs` of length `k + 1`, capturing the group `x`. -/
abbrev FindM := List Char → Option (List Char × Nat)

/-- `re.findall`: collect the captured groups of the leftmost
non-overlapping matches (fueled version). -/
def scanF (m : FindM) : Nat → List Char → List (List Char)
  | 0, _ => []
  | _ + 1, [] => []
  | fuel + 1, c :: cs =>
    match m (c :: cs) with
    | some (x, k) => x :: scanF m fuel (cs.drop k)
    | none => scanF m fuel cs

/-- `re.findall` with fuel fixed to the input length. -/
def scanA (m : FindM) (cs : List Char) : List (List Char) := scanF m cs.length cs

theorem scanF_mono (m : FindM) :
    ∀ f1 f2 cs, List.length cs ≤ f1 → List.length cs ≤ f2 →
      scanF m f1 cs = scanF m f2 cs := by
  intro f1
  induction f1 with
  | zero =>
    intro f2 cs h1 _
    have : cs = [] := List.length_eq_zero.mp (Nat.le_zero.mp h1)
    subst this
    cases f2 <;> rfl
  | succ f ih =>
    intro f2 cs h1 h2
    cases cs with
    | nil => cases f2 <;> rfl
    | cons c cs =>
      cases f2 with
      | zero => exact absurd h2 (by simp)
      | succ g =>
        have hcs1 : List.length cs ≤ f := Nat.le_of_succ_le_succ h1
        have hcs2 : List.length cs ≤ g := Nat.le_of_succ_le_succ h2
        cases hm : m (c :: cs) with
        | none => simp only [scanF, hm]; exact ih g cs hcs1 hcs2
        | some xk =>
          obtain ⟨x, k⟩ := xk
          simp only [scanF, hm]
          have hd : List.length (cs.drop k) ≤ List.length cs := by
            simpa using List.length_drop_le k cs
          rw [ih g (cs.drop k) (le_trans hd hcs1) (le_trans hd hcs2)]

theorem scanF_fuel (m : FindM) (fuel : Nat) (cs : List Char)
    (h : List.length cs ≤ fuel) : scanF m fuel cs = scanA m cs :=
  scanF_mono m fuel (List.length cs) cs h (Nat.le_refl _)

theorem scanA_nil (m : FindM) : scanA m [] = [] := rfl

theorem scanA_cons_some (m : FindM) (c : Char) (cs x : List Char) (k : Nat)
    (h : m (c :: cs) = some (x, k)) :
    scanA m (c :: cs) = x :: scanA m (cs.drop k) := by
  show scanF m (List.length cs + 1) (c :: cs) = _
  simp only [scanF, h]
  rw [scanF_fuel m (List.length cs) (cs.drop k) (by simpa using List.length_drop_le k cs)]

theorem scanA_cons_none (m : FindM) (c : Char) (cs : List Char)
    (h : m (c :: cs) = none) :
    scanA m (c :: cs) = scanA m cs := by
  show scanF m (List.length cs + 1) (c :: cs) = _
  simp only [scanF, h]
  rw [scanF_fuel m (List.length cs) cs (Nat.le_refl _)]

/-- Matchers for `re.sub`: given the previous character of the input (for
the word-boundary assertion) and the rest of the input, `some (rep, k)`
means the pattern matches a prefix of length `k + 1` and is replaced by
`rep`. -/
abbrev SubM := Option Char → List Char → Option (List Char × Nat)

/-- `re.sub`: rewrite the leftmost non-overlapping matches (fueled
version).  The previous character is taken from the input string, as in
Python, where replacements never affect the text being scanned. -/
def substF (m : SubM) : Nat → Option Char → List Char → List Char
  | 0, _, _ => []
  | _ + 1, _, [] => []
  | fuel + 1, prev, c :: cs =>
    match m prev (c :: cs) with
    | some (rep, k) => rep ++ substF m fuel (some ((c :: cs).getD k c)) (cs.drop k)
    | none => c :: substF m fuel (some c) cs

/-- `re.sub` with fuel fixed to the input length. -/
def substA (m : SubM) (prev : Option Char) (cs : List Char) : List Char :=
  substF m cs.length prev cs

theorem substF_mono (m : SubM) :
    ∀ f1 f2 prev cs, List.length cs ≤ f1 → List.length cs ≤ f2 →
      substF m f1 prev cs = substF m f2 prev cs := by
  intro f1
  induction f1 with
  | zero =>
    intro f2 prev cs h1 _
    have : cs = [] := List.length_eq_zero.mp (Nat.le_zero.mp h1)
    subst this
    cases f2 <;> rfl
  | succ f ih =>
    intro f2 prev cs h1 h2
    cases cs with
    | nil => cases f2 <;> rfl
    | cons c cs =>
      cases f2 with
      | zero => exact absurd h2 (by simp)
      | succ g =>
        have hcs1 : List.length cs ≤ f := Nat.le_of_succ_le_succ h1
        have hcs2 : List.length cs ≤ g := Nat.le_of_succ_le_succ h2
        cases hm : m prev (c :: cs) with
        | none => simp only [substF, hm]; rw [ih g (some c) cs hcs1 hcs2]
        | some rk =>
          obtain ⟨rep, k⟩ := rk
          simp only [substF, hm]
          have hd : List.length (cs.drop k) ≤ List.length cs := by
            simpa using List.length_drop_le k cs
          rw [ih g _ (cs.drop k) (le_trans hd hcs1) (le_trans hd hcs2)]

theorem substF_fuel (m : SubM) (fuel : Nat) (prev : Option Char) (cs : List Char)
    (h : List.length cs ≤ fuel) : substF m fuel prev cs = substA m prev cs :=
  substF_mono m fuel (List.length cs) prev cs h (Nat.le_refl _)

theorem substA_nil (m : SubM) (prev : Option Char) : substA m prev [] = [] := rfl

theorem substA_cons_some (m : SubM) (prev : Option Char) (c : Char) (cs rep : List Char)
    (k : Nat) (h : m prev (c :: cs) = some (rep, k)) :
    substA m prev (c :: cs) = rep ++ substA m (some ((c :: cs).getD k c)) (cs.drop k) := by
  show substF m (List.length cs + 1) prev (c :: cs) = _
  simp only [substF, h]
  rw [substF_fuel m (List.length cs) _ (cs.drop k) (by simpa using List.length_drop_le k cs)]

theorem substA_cons_none (m : SubM) (prev : Option Char) (c : Char) (cs : List Char)
    (h : m prev (c :: cs) = none) :
    substA m prev (c :: cs) = c :: substA m (some c) cs := by
  show substF m (List.length cs + 1) prev (c :: cs) = _
  simp only [substF, h]
  rw [substF_fuel m (List.length cs) (some c) cs (Nat.le_refl _)]

/-- Substitution for the CSS rewriter patterns (line 33 and 34 of the
source): an anchor character `a` (a literal `.` or `#`), the escaped old
name `o`, a captured trailing character in `isTrailC`, replaced by the
anchor, the new name `n` and the preserved trailing character. -/
def subCssF (a : Char) (o n : List Char) : Nat → List Char → List Char
  | 0, _ => []
  | _ + 1, [] => []
  | fuel + 1, c :: cs =>
    if c = a then
      match stripP o cs with
      | some (t :: rest) =>
        if isTrailC t then a :: (n ++ t :: subCssF a o n fuel rest)
        else c :: subCssF a o n fuel cs
      | _ => c :: subCssF a o n fuel cs
    else c :: subCssF a o n fuel cs

/-- CSS substitution with fuel fixed to the input length. -/
def subCss (a : Char) (o n cs : List Char) : List Char := subCssF a o n cs.length cs

theorem subCssF_mono (a : Char) (o n : List Char) :
    ∀ f1 f2 cs, List.length cs ≤ f1 → List.length cs ≤ f2 →
      subCssF a o n f1 cs = subCssF a o n f2 cs := by
  intro f1
  induction f1 with
  | zero =>
    intro f2 cs h1 _
    have : cs = [] := List.length_eq_zero.mp (Nat.le_zero.mp h1)
    subst this
    cases f2 <;> rfl
  | succ f ih =>
    intro f2 cs h1 h2
    cases cs with
    | nil => cases f2 <;> rfl
    | cons c cs =>
      cases f2 with
      | zero => exact absurd h2 (by simp)
      | succ g =>
        have hcs1 : List.length cs ≤ f := Nat.le_of_succ_le_succ h1
        have hcs2 : List.length cs ≤ g := Nat.le_of_succ_le_succ h2
        by_cases hc : c = a
        · cases hs : stripP o cs with
          | none => simp only [subCssF, hc, if_pos rfl, hs]; rw [ih g cs hcs1 hcs2]
          | some r =>
            cases r with
            | nil => simp only [subCssF, hc, if_pos rfl, hs]; rw [ih g cs hcs1 hcs2]
            | cons t rest =>
              have hr : cs = o ++ t :: rest := (stripP_eq_some o cs _).mp hs
              have hrest : List.length rest ≤ List.length cs := by
                rw [hr]; simp; omega
              by_cases ht : isTrailC t
              · simp only [subCssF, hc, if_pos rfl, hs, ht, if_true]
                rw [ih g rest (le_trans hrest hcs1) (le_trans hrest hcs2)]
              · simp only [subCssF, hc, if_pos rfl, hs, ht]
                simp only [Bool.false_eq_true, if_false]
                rw [ih g cs hcs1 hcs2]
        · simp only [subCssF, hc, if_false]
          rw [ih g cs hcs1 hcs2]

theorem subCssF_fuel (a : Char) (o n : List Char) (fuel : Nat) (cs : List Char)
    (h : List.length cs ≤ fuel) : subCssF a o n fuel cs = subCss a o n cs :=
  subCssF_mono a o n fuel (List.length cs) cs h (Nat.le_refl _)

theorem subCss_nil (a : Char) (o n : List Char) : subCss a o n [] = [] := rfl

theorem subCss_hit (a : Char) (o n : List Char) (t : Char) (rest : List Char)
    (ht : isTrailC t = true) :
    subCss a o n (a :: (o ++ t :: rest)) = a :: (n ++ t :: subCss a o n rest) := by
  show subCssF a o n (List.length (o ++ t :: rest) + 1) (a :: (o ++ t :: rest)) = _
  simp only [subCssF, if_pos rfl, stripP_append, ht, if_true]
  rw [subCssF_fuel a o n _ rest (by simp; omega)]

/-- A position where the CSS pattern for anchor `a` and old name `o`
matches: the anchor, the literal old name, then a trailing character. -/
def cssHit (o cs : List Char) : Prop :=
  ∃ t rest, cs = o ++ t :: rest ∧ isTrailC t = true

theorem subCss_miss (a : Char) (o n : List Char) (c : Char) (cs : List Char)
    (h : ¬(c = a ∧ cssHit o cs)) :
    subCss a o n (c :: cs) = c :: subCss a o n cs := by
  show subCssF a o n (List.length cs + 1) (c :: cs) = _
  by_cases hc : c = a
  · cases hs : stripP o cs with
    | none =>
      simp only [subCssF, hc, if_pos rfl, hs]
      rw [subCssF_fuel a o n _ cs (Nat.le_refl _)]
      simp [hc]
    | some r =>
      cases r with
      | nil =>
        simp only [subCssF, hc, if_pos rfl, hs]
        rw [subCssF_fuel a o n _ cs (Nat.le_refl _)]
        simp [hc]
      | cons t rest =>
        have hr : cs = o ++ t :: rest := (stripP_eq_some o cs _).mp hs
        have ht : ¬ isTrailC t = true := by
          intro ht
          exact h ⟨hc, t, rest, hr, ht⟩
        simp only [subCssF, hc, if_pos rfl, hs, ht]
        simp only [Bool.false_eq_true, if_false]
        rw [subCssF_fuel a o n _ cs (Nat.le_refl _)]
        simp [hc]
  · simp only [subCssF, hc, if_false]
    rw [subCssF_fuel a o n _ cs (Nat.le_refl _)]

/-- Scanner for the CSS patterns (lines 55 and 56): an anchor `.` or `#`,
a maximal nonempty run of identifier characters, then a trailing
character; the captured group is the identifier run.  The trailing
character is part of the match, so scanning resumes after it. -/
def scanCssF (a : Char) : Nat → List Char → List (List Char)
  | 0, _ => []
  | _ + 1, [] => []
  | fuel + 1, c :: cs =>
    if c = a then
      match cs.drop (cs.takeWhile isIdentC).length with
      | t :: rest =>
        if !(cs.takeWhile isIdentC).isEmpty && isTrailC t then
          cs.takeWhile isIdentC :: scanCssF a fuel rest
        else scanCssF a fuel cs
      | [] => scanCssF a fuel cs
    else scanCssF a fuel cs

/-- CSS scanning with fuel fixed to the input length. -/
def scanCss (a : Char) (cs : List Char) : List (List Char) := scanCssF a cs.length cs

theorem scanCssF_mono (a : Char) :
    ∀ f1 f2 cs, List.length cs ≤ f1 → List.length cs ≤ f2 →
      scanCssF a f1 cs = scanCssF a f2 cs := by
  intro f1
  induction f1 with
  | zero =>
    intro f2 cs h1 _
    have : cs = [] := List.length_eq_zero.mp (Nat.le_zero.mp h1)
    subst this
    cases f2 <;> rfl
  | succ f ih =>
    intro f2 cs h1 h2
    cases cs with
    | nil => cases f2 <;> rfl
    | cons c cs =>
      cases f2 with
      | zero => exact absurd h2 (by simp)
      | succ g =>
        have hcs1 : List.length cs ≤ f := Nat.le_of_succ_le_succ h1
        have hcs2 : List.length cs ≤ g := Nat.le_of_succ_le_succ h2
        by_cases hc : c = a
        · cases hs : cs.drop (cs.takeWhile isIdentC).length with
          | nil => simp only [scanCssF, hc, if_pos rfl, hs]; rw [ih g cs hcs1 hcs2]
          | cons t rest =>
            have hrest : List.length rest ≤ List.length cs := by
              have := congrArg List.length hs
              simp at this
              omega
            by_cases hcond : (!(cs.takeWhile isIdentC).isEmpty && isTrailC t) = true
            · simp only [scanCssF, hc, if_pos rfl, hs, hcond, if_true]
              rw [ih g rest (le_trans hrest hcs1) (le_trans hrest hcs2)]
            · simp only [scanCssF, hc, if_pos rfl, hs, hcond]
              simp only [Bool.false_eq_true, if_false]
              rw [ih g cs hcs1 hcs2]
        · simp only [scanCssF, hc, if_false]
          rw [ih g cs hcs1 hcs2]

theorem scanCssF_fuel (a : Char) (fuel : Nat) (cs : List Char)
    (h : List.length cs ≤ fuel) : scanCssF a fuel cs = scanCss a cs :=
  scanCssF_mono a fuel (List.length cs) cs h (Nat.le_refl _)

theorem trail_not_ident (c : Char) (h : isTrailC c = true) : isIdentC c = false := by
  simp only [isTrailC, Bool.or_eq_true, decide_eq_true_eq] at h
  rcases h with ((((((((h | h) | h) | h) | h) | h) | h) | h) | h) <;> subst h <;> decide

theorem takeWhile_app_cons (q : Char → Bool) (l : List Char) (b : Char) (r : List Char)
    (hl : ∀ c ∈ l, q c = true) (hb : q b = false) :
    (l ++ b :: r).takeWhile q = l := by
  induction l with
  | nil => simp [List.takeWhile_cons, hb]
  | cons c l ih =>
    have hc : q c = true := hl c (List.mem_cons_self c l)
    simp only [List.cons_append, List.takeWhile_cons, hc, if_true]
    rw [ih (fun d hd => hl d (List.mem_cons_of_mem c hd))]

theorem takeWhile_mem (q : Char → Bool) :
    ∀ (l : List Char) (c : Char), c ∈ l.takeWhile q → q c = true := by
  intro l
  induction l with
  | nil => intro c hc; simp [List.takeWhile] at hc
  | cons a l ih =>
    intro c hc
    by_cases ha : q a = true
    · rw [List.takeWhile_cons, if_pos ha] at hc
      rcases List.mem_cons.mp hc with h | h
      · subst h; exact ha
      · exact ih c h
    · rw [List.takeWhile_cons, if_neg ha] at hc
      simp at hc

theorem scanCss_nil (a : Char) : scanCss a [] = [] := rfl

theorem scanCss_hit (a : Char) (x : List Char) (t : Char) (rest : List Char)
    (hx : ∀ c ∈ x, isIdentC c = true) (hxne : x ≠ []) (ht : isTrailC t = true) :
    scanCss a (a :: (x ++ t :: rest)) = x :: scanCss a rest := by
  have htw : (x ++ t :: rest).takeWhile isIdentC = x :=
    takeWhile_app_cons isIdentC x t rest hx (trail_not_ident t ht)
  have hdrop : (x ++ t :: rest).drop x.length = t :: rest := List.drop_left x (t :: rest)
  have hne : (!x.isEmpty) = true := by simpa using hxne
  show scanCssF a (List.length (x ++ t :: rest) + 1) (a :: (x ++ t :: rest)) = _
  simp only [scanCssF, if_pos rfl, htw, hdrop, ht, Bool.and_true, hne, if_true]
  rw [scanCssF_fuel a _ rest (by simp; omega)]

theorem scanCss_miss (a : Char) (c : Char) (cs : List Char)
    (h : ¬(c = a ∧ ∃ x t rest, cs = x ++ t :: rest ∧ x = cs.takeWhile isIdentC ∧
      x ≠ [] ∧ isTrailC t = true)) :
    scanCss a (c :: cs) = scanCss a cs := by
  show scanCssF a (List.length cs + 1) (c :: cs) = _
  by_cases hc : c = a
  · cases hs : cs.drop (cs.takeWhile isIdentC).length with
    | nil =>
      simp only [scanCssF, hc, if_pos rfl, hs]
      rw [scanCssF_fuel a _ cs (Nat.le_refl _)]
      simp
    | cons t rest =>
      obtain ⟨s, hsplit⟩ := List.takeWhile_prefix (l := cs) (p := isIdentC)
      have hdrop : cs.drop (cs.takeWhile isIdentC).length = s := by
        nth_rewrite 2 [← hsplit]
        exact List.drop_left _ s
      have hst : s = t :: rest := by rw [← hdrop, hs]
      have hcs : cs = cs.takeWhile isIdentC ++ t :: rest := by
        rw [← hst]
        exact hsplit.symm
      have hcond : (!(cs.takeWhile isIdentC).isEmpty && isTrailC t) = false := by
        by_contra hcond
        have hcond2 : (!(cs.takeWhile isIdentC).isEmpty && isTrailC t) = true := by
          cases hb : (!(cs.takeWhile isIdentC).isEmpty && isTrailC t)
          · exact absurd hb hcond
          · rfl
        simp only [Bool.and_eq_true, Bool.not_eq_eq_eq_not, Bool.not_true] at hcond2
        obtain ⟨hne, ht⟩ := hcond2
        refine h ⟨hc, cs.takeWhile isIdentC, t, rest, hcs, rfl, ?_, ht⟩
        intro hemp
        rw [hemp] at hne
        simp at hne
      simp only [scanCssF, hc, hs, hcond, eq_self_iff_true, if_true,
        Bool.false_eq_true, if_false]
      rw [scanCssF_fuel a _ cs (Nat.le_refl _)]
  · simp only [scanCssF, hc, if_false]
    rw [scanCssF_fuel a _ cs (Nat.le_refl _)]

/-- Every identifier the CSS scanner captures is a nonempty run of
identifier characters that occurs in the content directly after the anchor
and directly before a trailing character. -/
theorem scanCss_sound (a : Char) :
    ∀ (N : Nat) (cs : List Char), cs.length ≤ N → ∀ x, x ∈ scanCss a cs →
      (∃ l t rest, cs = l ++ a :: (x ++ t :: rest) ∧ isTrailC t = true) ∧
      x ≠ [] ∧ (∀ c ∈ x, isIdentC c = true) := by
  intro N
  induction N with
  | zero =>
    intro cs hlen x hx
    have : cs = [] := List.length_eq_zero.mp (Nat.le_zero.mp hlen)
    subst this
    simp [scanCss_nil] at hx
  | succ n ih =>
    intro cs hlen x hx
    cases cs with
    | nil => simp [scanCss_nil] at hx
    | cons c cs =>
      by_cases H : c = a ∧ ∃ x0 t rest, cs = x0 ++ t :: rest ∧
          x0 = cs.takeWhile isIdentC ∧ x0 ≠ [] ∧ isTrailC t = true
      · obtain ⟨hc, x0, t, rest, hdec, htw, hne0, ht0⟩ := H
        subst hc
        have hid0 : ∀ d ∈ x0, isIdentC d = true := by
          intro d hd
          rw [htw] at hd
          exact takeWhile_mem isIdentC cs d hd
        rw [hdec, scanCss_hit c x0 t rest hid0 hne0 ht0] at hx
        rcases List.mem_cons.mp hx with hhead | htail
        · subst hhead
          exact ⟨⟨[], t, rest, by rw [hdec]; simp, ht0⟩, hne0, hid0⟩
        · have hrest : rest.length ≤ n := by
            have := congrArg List.length hdec
            simp at this
            simp at hlen
            omega
          obtain ⟨⟨l, t', rest', hdec', ht'⟩, hne, hid⟩ := ih rest hrest x htail
          refine ⟨⟨c :: (x0 ++ t :: l), t', rest', ?_, ht'⟩, hne, hid⟩
          rw [hdec, hdec']
          simp
      · rw [scanCss_miss a c cs H] at hx
        have hcs : cs.length ≤ n := by simp at hlen; omega
        obtain ⟨⟨l, t', rest', hdec', ht'⟩, hne, hid⟩ := ih cs hcs x hx
        exact ⟨⟨c :: l, t', rest', by rw [hdec']; simp, ht'⟩, hne, hid⟩

/-! ### The concrete patterns of `app.py` -/

/-- The literal text of the pattern for a quoted attribute value. -/
def clsAttr : List Char := ("class=" : String).toList

/-- The literal text of the `className` attribute pattern. -/
def clsNameAttr : List Char := ("className=" : String).toList

/-- The literal text of the `id` attribute pattern. -/
def idAttr : List Char := ("id=" : String).toList

/-- Function name of the `querySelector` patterns. -/
def qsName : List Char := ("querySelector" : String).toList

/-- Function name of the `querySelectorAll` patterns. -/
def qsAllName : List Char := ("querySelectorAll" : String).toList

/-- Function name of the `getElementsByClassName` patterns. -/
def gebcnName : List Char := ("getElementsByClassName" : String).toList

/-- Function name of the `getElementById` patterns. -/
def gebiName : List Char := ("getElementById" : String).toList

/-- Scanner matcher for an attribute pattern (lines 39, 40 of the source):
the literal `attr`, one quote, a maximal nonempty run of non-quote
characters (the captured group), and one quote (the two quotes need not
agree). -/
def mFindAttr (attr : List Char) (cs : List Char) : Option (List Char × Nat) :=
  match stripP attr cs with
  | some (q1 :: r1) =>
    if isQuoteC q1 then
      match r1.drop (r1.takeWhile (fun c => !(isQuoteC c))).length with
      | q2 :: _ =>
        if !(r1.takeWhile (fun c => !(isQuoteC c))).isEmpty && isQuoteC q2 then
          some (r1.takeWhile (fun c => !(isQuoteC c)),
            attr.length + (r1.takeWhile (fun c => !(isQuoteC c))).length + 1)
        else none
      | [] => none
    else none
  | _ => none

/-- Scanner matcher for the `querySelector`/`querySelectorAll` patterns
(lines 42, 43): the function name, `(`, a quote, ONE arbitrary character
other than a newline (the unescaped `.` of the source pattern), a maximal
nonempty run of non-quote characters (the captured group), a quote, `)`. -/
def mFindCallDot (name : List Char) (cs : List Char) : Option (List Char × Nat) :=
  match stripP (name ++ ['(']) cs with
  | some (q1 :: c0 :: r2) =>
    if isQuoteC q1 && !(c0 = '\n') then
      match r2.drop (r2.takeWhile (fun c => !(isQuoteC c))).length with
      | q2 :: c2 :: _ =>
        if !(r2.takeWhile (fun c => !(isQuoteC c))).isEmpty && isQuoteC q2 && c2 = ')' then
          some (r2.takeWhile (fun c => !(isQuoteC c)),
            name.length + (r2.takeWhile (fun c => !(isQuoteC c))).length + 4)
        else none
      | _ => none
    else none
  | _ => none

/-- Scanner matcher for the `getElementsByClassName`/`getElementById`
patterns (lines 44, 46): the function name, `(`, a quote, a maximal
nonempty run of non-quote characters (the captured group), a quote, `)`. -/
def mFindCallPlain (name : List Char) (cs : List Char) : Option (List Char × Nat) :=
  match stripP (name ++ ['(']) cs with
  | some (q1 :: r1) =>
    if isQuoteC q1 then
      match r1.drop (r1.takeWhile (fun c => !(isQuoteC c))).length with
      | q2 :: c2 :: _ =>
        if !(r1.takeWhile (fun c => !(isQuoteC c))).isEmpty && isQuoteC q2 && c2 = ')' then
          some (r1.takeWhile (fun c => !(isQuoteC c)),
            name.length + (r1.takeWhile (fun c => !(isQuoteC c))).length + 3)
        else none
      | _ => none
    else none
  | _ => none

/-- Rewriter matcher for an attribute pattern (lines 18, 19, 25): the
literal `attr`, one quote, the escaped old name, one quote; replaced by
the attribute with the new name in double quotes. -/
def mSubAttr (attr o n : List Char) (_ : Option Char) (cs : List Char) :
    Option (List Char × Nat) :=
  match stripP attr cs with
  | some (q1 :: r1) =>
    if isQuoteC q1 then
      match stripP o r1 with
      | some (q2 :: _) =>
        if isQuoteC q2 then
          some (attr ++ '"' :: (n ++ ['"']), attr.length + o.length + 1)
        else none
      | _ => none
    else none
  | _ => none

/-- Rewriter matcher for the `querySelector`/`querySelectorAll` patterns
(lines 20, 21): a word boundary, the function name, `(`, a quote, ONE
arbitrary non-newline character (the unescaped `.`), the escaped old name,
a quote, `)`; replaced by the call with a literal dot and the new name in
double quotes. -/
def mSubCallDot (name o n : List Char) (prev : Option Char) (cs : List Char) :
    Option (List Char × Nat) :=
  if isBoundary prev then
    match stripP (name ++ ['(']) cs with
    | some (q1 :: c0 :: r2) =>
      if isQuoteC q1 && !(c0 = '\n') then
        match stripP o r2 with
        | some (q2 :: c2 :: _) =>
          if isQuoteC q2 && c2 = ')' then
            some (name ++ '(' :: '"' :: '.' :: (n ++ ['"', ')']),
              name.length + o.length + 4)
          else none
        | _ => none
      else none
    | _ => none
  else none

/-- Rewriter matcher for the `getElementsByClassName`/`getElementById`
patterns (lines 22, 26): a word boundary, the function name, `(`, a quote,
the escaped old name, a quote, `)`; replaced by the call with the new name
in double quotes. -/
def mSubCallPlain (name o n : List Char) (prev : Option Char) (cs : List Char) :
    Option (List Char × Nat) :=
  if isBoundary prev then
    match stripP (name ++ ['(']) cs with
    | some (q1 :: r1) =>
      if isQuoteC q1 then
        match stripP o r1 with
        | some (q2 :: c2 :: _) =>
          if isQuoteC q2 && c2 = ')' then
            some (name ++ '(' :: '"' :: (n ++ ['"', ')']), name.length + o.length + 3)
          else none
        | _ => none
      else none
    | _ => none
  else none

/-! ### The functions of `app.py` -/

/-- `generate_random_string`: `random.choices` over
`string.ascii_letters + string.digits`, modelled by an arbitrary stream
`pick` of choices reduced modulo the alphabet size. -/
def alphabet : List Char :=
  ("abcdefghijklmnopqrstuvwxyzABCDEFGHIJKLMNOPQRSTUVWXYZ0123456789" : String).toList

/-- `generate_random_string(length)` with the random choices supplied by
`pick`. -/
def generate_random_string (len : Nat) (pick : Nat → Nat) : List Char :=
  (List.range len).map (fun i => alphabet.getD (pick i % 62) 'a')

/-- `find_classnames_ids` (lines 38 to 51): class names from the `class=`
attribute pattern and the three accessor-call patterns, ids from the `id=`
attribute pattern and `getElementById`; Python `set`s are modelled as
deduplicated lists. -/
def find_classnames_ids (cs : List Char) : List (List Char) × List (List Char) :=
  ((scanA (mFindAttr clsAttr) cs ++ scanA (mFindCallDot qsName) cs ++
    scanA (mFindCallDot qsAllName) cs ++ scanA (mFindCallPlain gebcnName) cs).dedup,
   (scanA (mFindAttr idAttr) cs ++ scanA (mFindCallPlain gebiName) cs).dedup)

/-- `find_classnames_ids_css` (lines 54 to 57). -/
def find_classnames_ids_css (cs : List Char) : List (List Char) × List (List Char) :=
  ((scanCss '.' cs).dedup, (scanCss '#' cs).dedup)

/-- One iteration of the loop body of `replace_classnames_ids` (lines 16
to 27): the seven `re.sub` calls for one `(old_name, new_name)` pair, in
source order. -/
def applyPairHtml (p : List Char × List Char) (cs : List Char) : List Char :=
  substA (mSubCallPlain gebiName p.1 p.2) none
    (substA (mSubAttr idAttr p.1 p.2) none
      (substA (mSubCallPlain gebcnName p.1 p.2) none
        (substA (mSubCallDot qsAllName p.1 p.2) none
          (substA (mSubCallDot qsName p.1 p.2) none
            (substA (mSubAttr clsNameAttr p.1 p.2) none
              (substA (mSubAttr clsAttr p.1 p.2) none cs))))))

/-- `replace_classnames_ids` (lines 15 to 28): the replacement mapping is
a list of pairs in dictionary iteration order. -/
def replace_classnames_ids (cs : List Char) (m : List (List Char × List Char)) :
    List Char :=
  m.foldl (fun acc p => applyPairHtml p acc) cs

/-- One iteration of the loop body of `replace_classnames_ids_css` (lines
32 to 34): the `.`-anchored substitution, then the `#`-anchored one. -/
def applyPairCss (p : List Char × List Char) (cs : List Char) : List Char :=
  subCss '#' p.1 p.2 (subCss '.' p.1 p.2 cs)

/-- `replace_classnames_ids_css` (lines 31 to 35). -/
def replace_classnames_ids_css (cs : List Char) (m : List (List Char × List Char)) :
    List Char :=
  m.foldl (fun acc p => applyPairCss p acc) cs

/-! ### The driver `process_files` -/

/-- The exception raised when reading a file: the two kinds caught by the
source, and any other exception (which the source does not catch). -/
inductive PyErr
  | notFound
  | permission
  | other
deriving DecidableEq

/-- The log messages emitted by `process_files`. -/
inductive LogMsg
  | scanningFile (p : String)
  | fileNotFound (p : String)
  | permissionError (p : String)
  | replacementsDbg
  | processingFile (p : String)
  | processedFile (p : String)
  | complete
deriving DecidableEq

/-- The file system visible to a run: the fixed ordered file list, each
path paired with the outcome of reading it. -/
abbrev FileSys := List (String × Except PyErr (List Char))

/-- The file extension used to dispatch between the CSS and the non-CSS
scanner and rewriter. -/
def cssExt : String := ".css"

/-- `file_path.endswith(".css")`, written on character lists so that it
evaluates by kernel reduction. -/
def hasCssExt (p : String) : Bool :=
  decide (p.toList.reverse.take cssExt.toList.length = cssExt.toList.reverse)

deriving instance DecidableEq for Except

/-- First pass of `process_files` (lines 66 to 80): scan every file,
catching only `FileNotFoundError` and `PermissionError`; any other
exception aborts the run (modelled by `Except.error` carrying the logs
emitted so far). -/
def scanPhase : FileSys → Except (List LogMsg) (List LogMsg × List (List Char) × List (List Char))
  | [] => Except.ok ([], [], [])
  | (p, r) :: rest =>
    match r with
    | Except.ok content =>
      match scanPhase rest with
      | Except.ok (logs, cls, ids) =>
        Except.ok (LogMsg.scanningFile p :: logs,
          (if hasCssExt p then find_classnames_ids_css content
           else find_classnames_ids content).1 ++ cls,
          (if hasCssExt p then find_classnames_ids_css content
           else find_classnames_ids content).2 ++ ids)
      | Except.error logs => Except.error (LogMsg.scanningFile p :: logs)
    | Except.error PyErr.notFound =>
      match scanPhase rest with
      | Except.ok (logs, cls, ids) =>
        Except.ok (LogMsg.scanningFile p :: LogMsg.fileNotFound p :: logs, cls, ids)
      | Except.error logs =>
        Except.error (LogMsg.scanningFile p :: LogMsg.fileNotFound p :: logs)
    | Except.error PyErr.permission =>
      match scanPhase rest with
      | Except.ok (logs, cls, ids) =>
        Except.ok (LogMsg.scanningFile p :: LogMsg.permissionError p :: logs, cls, ids)
      | Except.error logs =>
        Except.error (LogMsg.scanningFile p :: LogMsg.permissionError p :: logs)
    | Except.error PyErr.other => Except.error [LogMsg.scanningFile p]

/-- The mapping loop of `process_files` (lines 82 to 88): each identifier
not yet mapped receives a fresh random string; `supply j` is the stream of
random choices of the `j`-th call of `generate_random_string`. -/
def buildReplAux (supply : Nat → Nat → Nat) :
    List (List Char × List Char) → Nat → List (List Char) → List (List Char × List Char)
  | acc, _, [] => acc
  | acc, j, x :: rest =>
    if x ∈ acc.map Prod.fst then buildReplAux supply acc j rest
    else buildReplAux supply (acc ++ [(x, generate_random_string 8 (supply j))]) (j + 1) rest

/-- The replacements dictionary built by `process_files`: first the class
names, then the ids (Python `set` iteration modelled by deduplicated
lists). -/
def buildRepl (supply : Nat → Nat → Nat) (ids : List (List Char)) :
    List (List Char × List Char) :=
  buildReplAux supply [] 0 ids

/-- Second pass of `process_files` (lines 93 to 108): rewrite every
readable file, with the same two exception kinds caught per file. -/
def rewritePhase (m : List (List Char × List Char)) :
    FileSys → Except (List LogMsg) (List LogMsg × List (String × List Char))
  | [] => Except.ok ([], [])
  | (p, r) :: rest =>
    match r with
    | Except.ok content =>
      match rewritePhase m rest with
      | Except.ok (logs, written) =>
        Except.ok (LogMsg.processingFile p :: LogMsg.processedFile p :: logs,
          (p, if hasCssExt p then replace_classnames_ids_css content m
              else replace_classnames_ids content m) :: written)
      | Except.error logs =>
        Except.error (LogMsg.processingFile p :: LogMsg.processedFile p :: logs)
    | Except.error PyErr.notFound =>
      match rewritePhase m rest with
      | Except.ok (logs, written) =>
        Except.ok (LogMsg.processingFile p :: LogMsg.fileNotFound p :: logs, written)
      | Except.error logs =>
        Except.error (LogMsg.processingFile p :: LogMsg.fileNotFound p :: logs)
    | Except.error PyErr.permission =>
      match rewritePhase m rest with
      | Except.ok (logs, written) =>
        Except.ok (LogMsg.processingFile p :: LogMsg.permissionError p :: logs, written)
      | Except.error logs =>
        Except.error (LogMsg.processingFile p :: LogMsg.permissionError p :: logs)
    | Except.error PyErr.other => Except.error [LogMsg.processingFile p]

/-- `process_files` (lines 60 to 110): scan, build the replacement map,
rewrite, log completion.  The result carries the emitted logs and the
contents written back; an uncaught exception yields `Except.error`. -/
def process_files (fs : FileSys) (supply : Nat → Nat → Nat) :
    Except (List LogMsg) (List LogMsg × List (String × List Char)) :=
  match scanPhase fs with
  | Except.error logs => Except.error logs
  | Except.ok (logs1, cls, ids) =>
    match rewritePhase (buildRepl supply (cls.dedup ++ ids.dedup)) fs with
    | Except.error logs2 => Except.error (logs1 ++ LogMsg.replacementsDbg :: logs2)
    | Except.ok (logs2, written) =>
      Except.ok (logs1 ++ LogMsg.replacementsDbg :: (logs2 ++ [LogMsg.complete]), written)

/-! ### Characterizations of the matchers -/

theorem mSubAttr_eq_some (attr o n : List Char) (prev : Option Char)
    (cs rep : List Char) (k : Nat) :
    mSubAttr attr o n prev cs = some (rep, k) ↔
      ∃ q1 q2 rest, cs = attr ++ q1 :: (o ++ q2 :: rest) ∧ isQuoteC q1 = true ∧
        isQuoteC q2 = true ∧ rep = attr ++ '"' :: (n ++ ['"']) ∧
        k = attr.length + o.length + 1 := by
  constructor
  · intro h
    cases hs : stripP attr cs with
    | none => simp [mSubAttr, hs] at h
    | some r =>
      cases r with
      | nil => simp [mSubAttr, hs] at h
      | cons q1 r1 =>
        simp only [mSubAttr, hs] at h
        by_cases hq1 : isQuoteC q1 = true
        · rw [if_pos hq1] at h
          cases ho : stripP o r1 with
          | none => simp [ho] at h
          | some r2 =>
            cases r2 with
            | nil => simp [ho] at h
            | cons q2 rest =>
              simp only [ho] at h
              by_cases hq2 : isQuoteC q2 = true
              · rw [if_pos hq2] at h
                have hpair := (Option.some.injEq _ _).mp h
                have hrep : rep = attr ++ '"' :: (n ++ ['"']) :=
                  (congrArg Prod.fst hpair).symm
                have hk : k = attr.length + o.length + 1 :=
                  (congrArg Prod.snd hpair).symm
                refine ⟨q1, q2, rest, ?_, hq1, hq2, hrep, hk⟩
                rw [(stripP_eq_some attr cs _).mp hs, (stripP_eq_some o r1 _).mp ho]
              · rw [if_neg hq2] at h; exact absurd h (by simp)
        · rw [if_neg hq1] at h; exact absurd h (by simp)
  · rintro ⟨q1, q2, rest, hcs, hq1, hq2, hrep, hk⟩
    subst hcs hrep hk
    simp only [mSubAttr, stripP_append, hq1, if_true, hq2]

theorem mSubCallPlain_eq_some (name o n : List Char) (prev : Option Char)
    (cs rep : List Char) (k : Nat) :
    mSubCallPlain name o n prev cs = some (rep, k) ↔
      isBoundary prev = true ∧ ∃ q1 q2 rest,
        cs = (name ++ ['(']) ++ q1 :: (o ++ q2 :: ')' :: rest) ∧
        isQuoteC q1 = true ∧ isQuoteC q2 = true ∧
        rep = name ++ '(' :: '"' :: (n ++ ['"', ')']) ∧
        k = name.length + o.length + 3 := by
  constructor
  · intro h
    by_cases hb : isBoundary prev = true
    · refine ⟨hb, ?_⟩
      simp only [mSubCallPlain, if_pos hb] at h
      cases hs : stripP (name ++ ['(']) cs with
      | none => simp [hs] at h
      | some r =>
        cases r with
        | nil => simp [hs] at h
        | cons q1 r1 =>
          simp only [hs] at h
          by_cases hq1 : isQuoteC q1 = true
          · rw [if_pos hq1] at h
            cases ho : stripP o r1 with
            | none => simp [ho] at h
            | some r2 =>
              cases r2 with
              | nil => simp [ho] at h
              | cons q2 r3 =>
                cases r3 with
                | nil => simp [ho] at h
                | cons c2 rest =>
                  simp only [ho] at h
                  by_cases hq2 : isQuoteC q2 = true
                  · by_cases hc2 : c2 = ')'
                    · rw [if_pos (by simp [hq2, hc2])] at h
                      have hpair := (Option.some.injEq _ _).mp h
                      refine ⟨q1, q2, rest, ?_, hq1, hq2,
                        (congrArg Prod.fst hpair).symm, (congrArg Prod.snd hpair).symm⟩
                      rw [(stripP_eq_some _ cs _).mp hs, (stripP_eq_some o r1 _).mp ho, hc2]
                    · rw [if_neg (by simp [hc2])] at h
                      exact absurd h (by simp)
                  · rw [if_neg (by simp [hq2])] at h
                    exact absurd h (by simp)
          · rw [if_neg hq1] at h
            exact absurd h (by simp)
    · simp [mSubCallPlain, hb] at h
  · rintro ⟨hb, q1, q2, rest, hcs, hq1, hq2, hrep, hk⟩
    subst hcs hrep hk
    simp only [mSubCallPlain, if_pos hb, stripP_append, hq1, if_true, hq2]
    simp

theorem mSubCallDot_eq_some (name o n : List Char) (prev : Option Char)
    (cs rep : List Char) (k : Nat) :
    mSubCallDot name o n prev cs = some (rep, k) ↔
      isBoundary prev = true ∧ ∃ q1 c0 q2 rest,
        cs = (name ++ ['(']) ++ q1 :: c0 :: (o ++ q2 :: ')' :: rest) ∧
        isQuoteC q1 = true ∧ c0 ≠ '\n' ∧ isQuoteC q2 = true ∧
        rep = name ++ '(' :: '"' :: '.' :: (n ++ ['"', ')']) ∧
        k = name.length + o.length + 4 := by
  constructor
  · intro h
    by_cases hb : isBoundary prev = true
    · refine ⟨hb, ?_⟩
      simp only [mSubCallDot, if_pos hb] at h
      cases hs : stripP (name ++ ['(']) cs with
      | none => simp [hs] at h
      | some r =>
        cases r with
        | nil => simp [hs] at h
        | cons q1 r0 =>
          cases r0 with
          | nil => simp [hs] at h
          | cons c0 r2 =>
            simp only [hs] at h
            by_cases hq1 : isQuoteC q1 = true
            · by_cases hc0 : c0 = '\n'
              · rw [if_neg (by simp [hc0])] at h
                exact absurd h (by simp)
              · rw [if_pos (by simp [hq1, hc0])] at h
                cases ho : stripP o r2 with
                | none => simp [ho] at h
                | some r3 =>
                  cases r3 with
                  | nil => simp [ho] at h
                  | cons q2 r4 =>
                    cases r4 with
                    | nil => simp [ho] at h
                    | cons c2 rest =>
                      simp only [ho] at h
                      by_cases hq2 : isQuoteC q2 = true
                      · by_cases hc2 : c2 = ')'
                        · rw [if_pos (by simp [hq2, hc2])] at h
                          have hpair := (Option.some.injEq _ _).mp h
                          refine ⟨q1, c0, q2, rest, ?_, hq1, hc0, hq2,
                            (congrArg Prod.fst hpair).symm, (congrArg Prod.snd hpair).symm⟩
                          rw [(stripP_eq_some _ cs _).mp hs, (stripP_eq_some o r2 _).mp ho, hc2]
                        · rw [if_neg (by simp [hc2])] at h
                          exact absurd h (by simp)
                      · rw [if_neg (by simp [hq2])] at h
                        exact absurd h (by simp)
            · rw [if_neg (by simp [hq1])] at h
              exact absurd h (by simp)
    · simp [mSubCallDot, hb] at h
  · rintro ⟨hb, q1, c0, q2, rest, hcs, hq1, hc0, hq2, hrep, hk⟩
    subst hcs hrep hk
    simp only [mSubCallDot, if_pos hb, stripP_append, hq1, hq2, hc0]
    simp [hc0]

theorem mFindAttr_eq_some (attr cs x : List Char) (k : Nat) :
    mFindAttr attr cs = some (x, k) ↔
      ∃ q1 q2 rest, cs = attr ++ q1 :: (x ++ q2 :: rest) ∧ isQuoteC q1 = true ∧
        isQuoteC q2 = true ∧ x ≠ [] ∧ (∀ c ∈ x, isQuoteC c = false) ∧
        k = attr.length + x.length + 1 := by
  constructor
  · intro h
    cases hs : stripP attr cs with
    | none => simp [mFindAttr, hs] at h
    | some r =>
      cases r with
      | nil => simp [mFindAttr, hs] at h
      | cons q1 r1 =>
        simp only [mFindAttr, hs] at h
        by_cases hq1 : isQuoteC q1 = true
        · rw [if_pos hq1] at h
          obtain ⟨s, hsplit⟩ :=
            List.takeWhile_prefix (l := r1) (p := fun c => !(isQuoteC c))
          have hdrop : r1.drop (r1.takeWhile (fun c => !(isQuoteC c))).length = s := by
            nth_rewrite 2 [← hsplit]
            exact List.drop_left _ s
          cases hd : r1.drop (r1.takeWhile (fun c => !(isQuoteC c))).length with
          | nil => simp [hd] at h
          | cons q2 rest =>
            simp only [hd] at h
            by_cases hcond :
                (!(r1.takeWhile (fun c => !(isQuoteC c))).isEmpty && isQuoteC q2) = true
            · rw [if_pos hcond] at h
              have hpair := (Option.some.injEq _ _).mp h
              have hx : x = r1.takeWhile (fun c => !(isQuoteC c)) :=
                (congrArg Prod.fst hpair).symm
              have hk0 : k = attr.length + (r1.takeWhile (fun c => !(isQuoteC c))).length + 1 :=
                (congrArg Prod.snd hpair).symm
              have hk : k = attr.length + x.length + 1 := by rw [hk0, ← hx]
              simp only [Bool.and_eq_true] at hcond
              obtain ⟨hne0, hq2⟩ := hcond
              have hst : s = q2 :: rest := by rw [← hdrop, hd]
              refine ⟨q1, q2, rest, ?_, hq1, hq2, ?_, ?_, hk⟩
              · rw [(stripP_eq_some attr cs _).mp hs]
                rw [hx, ← hst, hsplit]
              · intro hxe
                rw [hx] at hxe
                rw [hxe] at hne0
                simp at hne0
              · intro c hc
                rw [hx] at hc
                have := takeWhile_mem _ r1 c hc
                simpa using this
            · rw [if_neg hcond] at h
              exact absurd h (by simp)
        · rw [if_neg hq1] at h
          exact absurd h (by simp)
  · rintro ⟨q1, q2, rest, hcs, hq1, hq2, hxne, hxq, hk⟩
    subst hcs hk
    have htw : (x ++ q2 :: rest).takeWhile (fun c => !(isQuoteC c)) = x :=
      takeWhile_app_cons _ x q2 rest (fun c hc => by simp [hxq c hc]) (by simp [hq2])
    have hdrop : (x ++ q2 :: rest).drop x.length = q2 :: rest := List.drop_left x _
    simp only [mFindAttr, stripP_append, hq1, if_true, htw, hdrop, hq2, Bool.and_true]
    rw [if_pos (by simpa using hxne)]

theorem mFindCallPlain_eq_some (name cs x : List Char) (k : Nat) :
    mFindCallPlain name cs = some (x, k) ↔
      ∃ q1 q2 rest, cs = (name ++ ['(']) ++ q1 :: (x ++ q2 :: ')' :: rest) ∧
        isQuoteC q1 = true ∧ isQuoteC q2 = true ∧ x ≠ [] ∧
        (∀ c ∈ x, isQuoteC c = false) ∧ k = name.length + x.length + 3 := by
  constructor
  · intro h
    cases hs : stripP (name ++ ['(']) cs with
    | none => simp [mFindCallPlain, hs] at h
    | some r =>
      cases r with
      | nil => simp [mFindCallPlain, hs] at h
      | cons q1 r1 =>
        simp only [mFindCallPlain, hs] at h
        by_cases hq1 : isQuoteC q1 = true
        · rw [if_pos hq1] at h
          obtain ⟨s, hsplit⟩ :=
            List.takeWhile_prefix (l := r1) (p := fun c => !(isQuoteC c))
          have hdrop : r1.drop (r1.takeWhile (fun c => !(isQuoteC c))).length = s := by
            nth_rewrite 2 [← hsplit]
            exact List.drop_left _ s
          cases hd : r1.drop (r1.takeWhile (fun c => !(isQuoteC c))).length with
          | nil => simp [hd] at h
          | cons q2 r3 =>
            cases r3 with
            | nil => simp [hd] at h
            | cons c2 rest =>
              simp only [hd] at h
              by_cases hcond :
                  (!(r1.takeWhile (fun c => !(isQuoteC c))).isEmpty && isQuoteC q2 &&
                    c2 = ')') = true
              · rw [if_pos hcond] at h
                have hpair := (Option.some.injEq _ _).mp h
                have hx : x = r1.takeWhile (fun c => !(isQuoteC c)) :=
                  (congrArg Prod.fst hpair).symm
                have hk0 : k = name.length + (r1.takeWhile (fun c => !(isQuoteC c))).length + 3 :=
                  (congrArg Prod.snd hpair).symm
                have hk : k = name.length + x.length + 3 := by rw [hk0, ← hx]
                simp only [Bool.and_eq_true, decide_eq_true_eq] at hcond
                obtain ⟨⟨hne0, hq2⟩, hc2⟩ := hcond
                have hst : s = q2 :: c2 :: rest := by rw [← hdrop, hd]
                refine ⟨q1, q2, rest, ?_, hq1, hq2, ?_, ?_, hk⟩
                · rw [(stripP_eq_some _ cs _).mp hs]
                  rw [hx, ← hc2, ← hst, hsplit]
                · intro hxe
                  rw [hx] at hxe
                  rw [hxe] at hne0
                  simp at hne0
                · intro c hc
                  rw [hx] at hc
                  have := takeWhile_mem _ r1 c hc
                  simpa using this
              · rw [if_neg hcond] at h
                exact absurd h (by simp)
        · rw [if_neg hq1] at h
          exact absurd h (by simp)
  · rintro ⟨q1, q2, rest, hcs, hq1, hq2, hxne, hxq, hk⟩
    subst hcs hk
    have htw : (x ++ q2 :: ')' :: rest).takeWhile (fun c => !(isQuoteC c)) = x :=
      takeWhile_app_cons _ x q2 _ (fun c hc => by simp [hxq c hc]) (by simp [hq2])
    have hdrop : (x ++ q2 :: ')' :: rest).drop x.length = q2 :: ')' :: rest :=
      List.drop_left x _
    simp only [mFindCallPlain, stripP_append, hq1, if_true, htw, hdrop, hq2]
    rw [if_pos (by simp; simpa using hxne)]

theorem mFindCallDot_eq_some (name cs x : List Char) (k : Nat) :
    mFindCallDot name cs = some (x, k) ↔
      ∃ q1 c0 q2 rest, cs = (name ++ ['(']) ++ q1 :: c0 :: (x ++ q2 :: ')' :: rest) ∧
        isQuoteC q1 = true ∧ c0 ≠ '\n' ∧ isQuoteC q2 = true ∧ x ≠ [] ∧
        (∀ c ∈ x, isQuoteC c = false) ∧ k = name.length + x.length + 4 := by
  constructor
  · intro h
    cases hs : stripP (name ++ ['(']) cs with
    | none => simp [mFindCallDot, hs] at h
    | some r =>
      cases r with
      | nil => simp [mFindCallDot, hs] at h
      | cons q1 r0 =>
        cases r0 with
        | nil => simp [mFindCallDot, hs] at h
        | cons c0 r2 =>
          simp only [mFindCallDot, hs] at h
          by_cases hq1 : isQuoteC q1 = true
          · by_cases hc0 : c0 = '\n'
            · rw [if_neg (by simp [hc0])] at h
              exact absurd h (by simp)
            · rw [if_pos (by simp [hq1, hc0])] at h
              obtain ⟨s, hsplit⟩ :=
                List.takeWhile_prefix (l := r2) (p := fun c => !(isQuoteC c))
              have hdrop : r2.drop (r2.takeWhile (fun c => !(isQuoteC c))).length = s := by
                nth_rewrite 2 [← hsplit]
                exact List.drop_left _ s
              cases hd : r2.drop (r2.takeWhile (fun c => !(isQuoteC c))).length with
              | nil => simp [hd] at h
              | cons q2 r3 =>
                cases r3 with
                | nil => simp [hd] at h
                | cons c2 rest =>
                  simp only [hd] at h
                  by_cases hcond :
                      (!(r2.takeWhile (fun c => !(isQuoteC c))).isEmpty && isQuoteC q2 &&
                        c2 = ')') = true
                  · rw [if_pos hcond] at h
                    have hpair := (Option.some.injEq _ _).mp h
                    have hx : x = r2.takeWhile (fun c => !(isQuoteC c)) :=
                      (congrArg Prod.fst hpair).symm
                    have hk0 : k = name.length + (r2.takeWhile (fun c => !(isQuoteC c))).length + 4 :=
                      (congrArg Prod.snd hpair).symm
                    have hk : k = name.length + x.length + 4 := by rw [hk0, ← hx]
                    simp only [Bool.and_eq_true, decide_eq_true_eq] at hcond
                    obtain ⟨⟨hne0, hq2⟩, hc2⟩ := hcond
                    have hst : s = q2 :: c2 :: rest := by rw [← hdrop, hd]
                    refine ⟨q1, c0, q2, rest, ?_, hq1, hc0, hq2, ?_, ?_, hk⟩
                    · rw [(stripP_eq_some _ cs _).mp hs]
                      rw [hx, ← hc2, ← hst, hsplit]
                    · intro hxe
                      rw [hx] at hxe
                      rw [hxe] at hne0
                      simp at hne0
                    · intro c hc
                      rw [hx] at hc
                      have := takeWhile_mem _ r2 c hc
                      simpa using this
                  · rw [if_neg hcond] at h
                    exact absurd h (by simp)
          · rw [if_neg (by simp [hq1])] at h
            exact absurd h (by simp)
  · rintro ⟨q1, c0, q2, rest, hcs, hq1, hc0, hq2, hxne, hxq, hk⟩
    subst hcs hk
    have htw : (x ++ q2 :: ')' :: rest).takeWhile (fun c => !(isQuoteC c)) = x :=
      takeWhile_app_cons _ x q2 _ (fun c hc => by simp [hxq c hc]) (by simp [hq2])
    have hdrop : (x ++ q2 :: ')' :: rest).drop x.length = q2 :: ')' :: rest :=
      List.drop_left x _
    simp only [mFindCallDot, stripP_append, hq1, hc0, htw, hdrop, hq2]
    rw [if_pos (by simp [hc0]), if_pos (by simp; simpa using hxne)]

/-! ### Properties of the name generator and the mapping phase -/

theorem generate_random_string_length (len : Nat) (pick : Nat → Nat) :
    (generate_random_string len pick).length = len := by
  simp [generate_random_string]

theorem alphabet_length : alphabet.length = 62 := by decide

theorem alphabet_alnum : ∀ c ∈ alphabet, c.isAlphanum = true := by decide

theorem generate_random_string_alnum (len : Nat) (pick : Nat → Nat) :
    ∀ c ∈ generate_random_string len pick, c.isAlphanum = true := by
  intro c hc
  simp only [generate_random_string, List.mem_map, List.mem_range] at hc
  obtain ⟨i, _, hci⟩ := hc
  have hlt : pick i % 62 < alphabet.length := by
    rw [alphabet_length]
    exact Nat.mod_lt _ (by norm_num)
  rw [List.getD_eq_getElem alphabet 'a' hlt] at hci
  exact alphabet_alnum c (hci ▸ List.getElem_mem hlt)

theorem buildReplAux_mem_keys (supply : Nat → Nat → Nat) :
    ∀ (l : List (List Char)) (acc : List (List Char × List Char)) (j : Nat)
      (x : List Char),
      (x ∈ (buildReplAux supply acc j l).map Prod.fst ↔
        x ∈ acc.map Prod.fst ∨ x ∈ l) := by
  intro l
  induction l with
  | nil => intro acc j x; simp [buildReplAux]
  | cons y rest ih =>
    intro acc j x
    by_cases hy : y ∈ acc.map Prod.fst
    · rw [buildReplAux, if_pos hy, ih]
      constructor
      · rintro (h | h)
        · exact Or.inl h
        · exact Or.inr (List.mem_cons_of_mem y h)
      · rintro (h | h)
        · exact Or.inl h
        · rcases List.mem_cons.mp h with h | h
          · exact Or.inl (h ▸ hy)
          · exact Or.inr h
    · rw [buildReplAux, if_neg hy, ih]
      simp only [List.map_append, List.map_cons, List.map_nil, List.mem_append,
        List.mem_singleton, List.mem_cons]
      tauto

theorem buildReplAux_keys_nodup (supply : Nat → Nat → Nat) :
    ∀ (l : List (List Char)) (acc : List (List Char × List Char)) (j : Nat),
      (acc.map Prod.fst).Nodup → ((buildReplAux supply acc j l).map Prod.fst).Nodup := by
  intro l
  induction l with
  | nil => intro acc j h; simpa [buildReplAux] using h
  | cons y rest ih =>
    intro acc j h
    by_cases hy : y ∈ acc.map Prod.fst
    · rw [buildReplAux, if_pos hy]
      exact ih acc j h
    · rw [buildReplAux, if_neg hy]
      refine ih _ (j + 1) ?_
      simp only [List.map_append, List.map_cons, List.map_nil]
      rw [List.nodup_append]
      exact ⟨h, List.nodup_singleton _, by simpa using hy⟩

theorem buildReplAux_values (supply : Nat → Nat → Nat) :
    ∀ (l : List (List Char)) (acc : List (List Char × List Char)) (j : Nat)
      (p : List Char × List Char), p ∈ buildReplAux supply acc j l →
      p ∈ acc ∨ ∃ i, p.2 = generate_random_string 8 (supply i) := by
  intro l
  induction l with
  | nil => intro acc j p hp; exact Or.inl (by simpa [buildReplAux] using hp)
  | cons y rest ih =>
    intro acc j p hp
    by_cases hy : y ∈ acc.map Prod.fst
    · rw [buildReplAux, if_pos hy] at hp
      exact ih acc j p hp
    · rw [buildReplAux, if_neg hy] at hp
      rcases ih _ (j + 1) p hp with h | h
      · rcases List.mem_append.mp h with h | h
        · exact Or.inl h
        · right
          refine ⟨j, ?_⟩
          have : p = (y, generate_random_string 8 (supply j)) := by simpa using h
          rw [this]
      · exact Or.inr h

theorem buildRepl_keys_nodup (supply : Nat → Nat → Nat) (l : List (List Char)) :
    ((buildRepl supply l).map Prod.fst).Nodup :=
  buildReplAux_keys_nodup supply l [] 0 (by simp)

theorem buildRepl_mem_keys (supply : Nat → Nat → Nat) (l : List (List Char))
    (x : List Char) : x ∈ (buildRepl supply l).map Prod.fst ↔ x ∈ l := by
  rw [buildRepl, buildReplAux_mem_keys]
  simp

theorem buildRepl_length (supply : Nat → Nat → Nat) (l : List (List Char)) :
    (buildRepl supply l).length = l.toFinset.card := by
  have h1 : (buildRepl supply l).length = ((buildRepl supply l).map Prod.fst).length := by
    simp
  have h2 : ((buildRepl supply l).map Prod.fst).toFinset = l.toFinset := by
    apply Finset.ext
    intro x
    simp only [List.mem_toFinset]
    exact buildRepl_mem_keys supply l x
  rw [h1, ← List.toFinset_card_of_nodup (buildRepl_keys_nodup supply l), h2]

/-! ### Properties of the driver -/

theorem scanPhase_ok (fs : FileSys) (h : ∀ pr ∈ fs, pr.2 ≠ Except.error PyErr.other) :
    ∃ logs cls ids, scanPhase fs = Except.ok (logs, cls, ids) ∧
      ∀ pr ∈ fs,
        (pr.2 = Except.error PyErr.notFound → LogMsg.fileNotFound pr.1 ∈ logs) ∧
        (pr.2 = Except.error PyErr.permission → LogMsg.permissionError pr.1 ∈ logs) := by
  induction fs with
  | nil =>
    refine ⟨[], [], [], rfl, ?_⟩
    intro pr hpr
    simp at hpr
  | cons f rest ih =>
    obtain ⟨p, r⟩ := f
    have hrest : ∀ pr ∈ rest, pr.2 ≠ Except.error PyErr.other :=
      fun pr hpr => h pr (List.mem_cons_of_mem _ hpr)
    obtain ⟨logs, cls, ids, hok, hcov⟩ := ih hrest
    cases r with
    | ok content =>
      refine ⟨_, _, _, by rw [scanPhase, hok], ?_⟩
      intro pr hpr
      rcases List.mem_cons.mp hpr with hhead | htail
      · constructor
        · intro habs
          rw [hhead] at habs
          simp at habs
        · intro habs
          rw [hhead] at habs
          simp at habs
      · exact ⟨fun he => List.mem_cons_of_mem _ ((hcov pr htail).1 he),
          fun he => List.mem_cons_of_mem _ ((hcov pr htail).2 he)⟩
    | error e =>
      cases e with
      | notFound =>
        refine ⟨_, _, _, by rw [scanPhase, hok], ?_⟩
        intro pr hpr
        rcases List.mem_cons.mp hpr with hhead | htail
        · refine ⟨fun _ => ?_, fun habs => ?_⟩
          · rw [hhead]
            exact List.mem_cons_of_mem _ (List.mem_cons_self _ _)
          · rw [hhead] at habs
            simp at habs
        · exact ⟨fun he => List.mem_cons_of_mem _ (List.mem_cons_of_mem _ ((hcov pr htail).1 he)),
            fun he => List.mem_cons_of_mem _ (List.mem_cons_of_mem _ ((hcov pr htail).2 he))⟩
      | permission =>
        refine ⟨_, _, _, by rw [scanPhase, hok], ?_⟩
        intro pr hpr
        rcases List.mem_cons.mp hpr with hhead | htail
        · refine ⟨fun habs => ?_, fun _ => ?_⟩
          · rw [hhead] at habs
            simp at habs
          · rw [hhead]
            exact List.mem_cons_of_mem _ (List.mem_cons_self _ _)
        · exact ⟨fun he => List.mem_cons_of_mem _ (List.mem_cons_of_mem _ ((hcov pr htail).1 he)),
            fun he => List.mem_cons_of_mem _ (List.mem_cons_of_mem _ ((hcov pr htail).2 he))⟩
      | other =>
        exact absurd rfl (h (p, Except.error PyErr.other) (List.mem_cons_self _ _))

theorem scanPhase_error (fs : FileSys) (pr : String × Except PyErr (List Char))
    (hmem : pr ∈ fs) (herr : pr.2 = Except.error PyErr.other) :
    ∀ v, scanPhase fs ≠ Except.ok v := by
  induction fs with
  | nil => simp at hmem
  | cons f rest ih =>
    intro v hv
    obtain ⟨p, r⟩ := f
    rcases List.mem_cons.mp hmem with hhead | htail
    · have hr : r = Except.error PyErr.other := by
        rw [hhead] at herr
        exact herr
      subst hr
      rw [scanPhase] at hv
      exact Except.noConfusion hv
    · cases r with
      | ok content =>
        rw [scanPhase] at hv
        cases hrec : scanPhase rest with
        | ok w => exact ih htail w hrec
        | error logs => rw [hrec] at hv; exact Except.noConfusion hv
      | error e =>
        cases e with
        | notFound =>
          rw [scanPhase] at hv
          cases hrec : scanPhase rest with
          | ok w => exact ih htail w hrec
          | error logs => rw [hrec] at hv; exact Except.noConfusion hv
        | permission =>
          rw [scanPhase] at hv
          cases hrec : scanPhase rest with
          | ok w => exact ih htail w hrec
          | error logs => rw [hrec] at hv; exact Except.noConfusion hv
        | other =>
          rw [scanPhase] at hv
          exact Except.noConfusion hv

theorem rewritePhase_ok (m : List (List Char × List Char)) (fs : FileSys)
    (h : ∀ pr ∈ fs, pr.2 ≠ Except.error PyErr.other) :
    ∃ logs written, rewritePhase m fs = Except.ok (logs, written) ∧
      ∀ pr ∈ fs, ∀ content, pr.2 = Except.ok content →
        (pr.1, if hasCssExt pr.1 then replace_classnames_ids_css content m
               else replace_classnames_ids content m) ∈ written := by
  induction fs with
  | nil =>
    refine ⟨[], [], rfl, ?_⟩
    intro pr hpr
    simp at hpr
  | cons f rest ih =>
    obtain ⟨p, r⟩ := f
    have hrest : ∀ pr ∈ rest, pr.2 ≠ Except.error PyErr.other :=
      fun pr hpr => h pr (List.mem_cons_of_mem _ hpr)
    obtain ⟨logs, written, hok, hcov⟩ := ih hrest
    cases r with
    | ok content =>
      refine ⟨_, _, by rw [rewritePhase, hok], ?_⟩
      intro pr hpr c hc
      rcases List.mem_cons.mp hpr with hhead | htail
      · have hp : pr.1 = p := by rw [hhead]
        have : content = c := by
          have := hhead ▸ hc
          simpa using this
        rw [hp, ← this]
        exact List.mem_cons_self _ _
      · exact List.mem_cons_of_mem _ (hcov pr htail c hc)
    | error e =>
      cases e with
      | notFound =>
        refine ⟨_, _, by rw [rewritePhase, hok], ?_⟩
        intro pr hpr c hc
        rcases List.mem_cons.mp hpr with hhead | htail
        · exfalso
          have := hhead ▸ hc
          simp at this
        · exact hcov pr htail c hc
      | permission =>
        refine ⟨_, _, by rw [rewritePhase, hok], ?_⟩
        intro pr hpr c hc
        rcases List.mem_cons.mp hpr with hhead | htail
        · exfalso
          have := hhead ▸ hc
          simp at this
        · exact hcov pr htail c hc
      | other =>
        exact absurd rfl (h (p, Except.error PyErr.other) (List.mem_cons_self _ _))

theorem rewritePhase_error (m : List (List Char × List Char)) (fs : FileSys)
    (pr : String × Except PyErr (List Char))
    (hmem : pr ∈ fs) (herr : pr.2 = Except.error PyErr.other) :
    ∀ v, rewritePhase m fs ≠ Except.ok v := by
  induction fs with
  | nil => simp at hmem
  | cons f rest ih =>
    intro v hv
    obtain ⟨p, r⟩ := f
    rcases List.mem_cons.mp hmem with hhead | htail
    · have hr : r = Except.error PyErr.other := by
        rw [hhead] at herr
        exact herr
      subst hr
      rw [rewritePhase] at hv
      exact Except.noConfusion hv
    · cases r with
      | ok content =>
        rw [rewritePhase] at hv
        cases hrec : rewritePhase m rest with
        | ok w => exact ih htail w hrec
        | error logs => rw [hrec] at hv; exact Except.noConfusion hv
      | error e =>
        cases e with
        | notFound =>
          rw [rewritePhase] at hv
          cases hrec : rewritePhase m rest with
          | ok w => exact ih htail w hrec
          | error logs => rw [hrec] at hv; exact Except.noConfusion hv
        | permission =>
          rw [rewritePhase] at hv
          cases hrec : rewritePhase m rest with
          | ok w => exact ih htail w hrec
          | error logs => rw [hrec] at hv; exact Except.noConfusion hv
        | other =>
          rw [rewritePhase] at hv
          exact Except.noConfusion hv

theorem process_files_ok (fs : FileSys) (supply : Nat → Nat → Nat)
    (h : ∀ pr ∈ fs, pr.2 ≠ Except.error PyErr.other) :
    ∃ logs written, process_files fs supply = Except.ok (logs, written) ∧
      LogMsg.complete ∈ logs ∧
      (∀ pr ∈ fs, ∀ content, pr.2 = Except.ok content →
        ∃ out, (pr.1, out) ∈ written) ∧
      (∀ pr ∈ fs,
        (pr.2 = Except.error PyErr.notFound → LogMsg.fileNotFound pr.1 ∈ logs) ∧
        (pr.2 = Except.error PyErr.permission → LogMsg.permissionError pr.1 ∈ logs)) := by
  obtain ⟨logs1, cls, ids, hscan, hlogcov⟩ := scanPhase_ok fs h
  obtain ⟨logs2, written, hrew, hcov⟩ :=
    rewritePhase_ok (buildRepl supply (cls.dedup ++ ids.dedup)) fs h
  refine ⟨logs1 ++ LogMsg.replacementsDbg :: (logs2 ++ [LogMsg.complete]), written,
    ?_, ?_, ?_, ?_⟩
  · simp only [process_files, hscan, hrew]
  · simp
  · intro pr hpr content hc
    exact ⟨_, hcov pr hpr content hc⟩
  · intro pr hpr
    refine ⟨fun he => ?_, fun he => ?_⟩
    · exact List.mem_append.mpr (Or.inl ((hlogcov pr hpr).1 he))
    · exact List.mem_append.mpr (Or.inl ((hlogcov pr hpr).2 he))

theorem process_files_crash (fs : FileSys) (supply : Nat → Nat → Nat)
    (pr : String × Except PyErr (List Char))
    (hmem : pr ∈ fs) (herr : pr.2 = Except.error PyErr.other) :
    ∀ v, process_files fs supply ≠ Except.ok v := by
  intro v hv
  cases hscan : scanPhase fs with
  | error logs =>
    rw [process_files, hscan] at hv
    exact Except.noConfusion hv
  | ok w =>
    exact scanPhase_error fs pr hmem herr w hscan

/-! ### Commutation of CSS substitutions (for claim C8) -/

theorem subCss_walk (a : Char) (o n : List Char) :
    ∀ (l X : List Char), (∀ c ∈ l, c ≠ a) →
      subCss a o n (l ++ X) = l ++ subCss a o n X := by
  intro l
  induction l with
  | nil => intro X _; rfl
  | cons c l ih =>
    intro X hl
    have hc : c ≠ a := hl c (List.mem_cons_self c l)
    rw [List.cons_append, subCss_miss a o n c (l ++ X) (fun h => hc h.1)]
    rw [ih X (fun d hd => hl d (List.mem_cons_of_mem c hd))]
    simp

theorem ident_trail_unique :
    ∀ (o₁ o₂ : List Char) (t₁ t₂ : Char) (r₁ r₂ : List Char),
      (∀ c ∈ o₁, isIdentC c = true) → (∀ c ∈ o₂, isIdentC c = true) →
      isTrailC t₁ = true → isTrailC t₂ = true →
      o₁ ++ t₁ :: r₁ = o₂ ++ t₂ :: r₂ → o₁ = o₂ ∧ t₁ = t₂ ∧ r₁ = r₂ := by
  intro o₁
  induction o₁ with
  | nil =>
    intro o₂ t₁ t₂ r₁ r₂ _ ho2 ht1 _ heq
    cases o₂ with
    | nil => simpa using heq
    | cons d o₂ =>
      exfalso
      simp only [List.nil_append, List.cons_append, List.cons.injEq] at heq
      have hd : isIdentC d = true := ho2 d (List.mem_cons_self d o₂)
      rw [← heq.1] at hd
      rw [trail_not_ident t₁ ht1] at hd
      exact Bool.noConfusion hd
  | cons c o₁ ih =>
    intro o₂ t₁ t₂ r₁ r₂ ho1 ho2 ht1 ht2 heq
    cases o₂ with
    | nil =>
      exfalso
      simp only [List.cons_append, List.nil_append, List.cons.injEq] at heq
      have hc : isIdentC c = true := ho1 c (List.mem_cons_self c o₁)
      rw [heq.1] at hc
      rw [trail_not_ident t₂ ht2] at hc
      exact Bool.noConfusion hc
    | cons d o₂ =>
      simp only [List.cons_append, List.cons.injEq] at heq
      obtain ⟨hcd, heq'⟩ := heq
      obtain ⟨h1, h2, h3⟩ := ih o₂ t₁ t₂ r₁ r₂
        (fun e he => ho1 e (List.mem_cons_of_mem c he))
        (fun e he => ho2 e (List.mem_cons_of_mem d he)) ht1 ht2 heq'
      exact ⟨by rw [hcd, h1], h2, h3⟩

theorem no_hit_ident_neq (w o₂ : List Char) (t : Char) (X : List Char)
    (hw : ∀ c ∈ w, isIdentC c = true) (ho2 : ∀ c ∈ o₂, isIdentC c = true)
    (hne : w ≠ o₂) (ht : isTrailC t = true) : ¬ cssHit o₂ (w ++ t :: X) := by
  rintro ⟨t', r', heq, ht'⟩
  exact hne (ident_trail_unique w o₂ t t' X r' hw ho2 ht ht' heq).1

theorem subCss_out_cons (a₂ : Char) (o₂ n₂ : List Char)
    (ha2i : isIdentC a₂ = false) (ha2t : isTrailC a₂ = false) (d : Char)
    (hd : isIdentC d = true ∨ isTrailC d = true) :
    ∀ (cs out' : List Char), subCss a₂ o₂ n₂ cs = d :: out' →
      ∃ cs', cs = d :: cs' ∧ subCss a₂ o₂ n₂ cs' = out' := by
  intro cs out' hout
  cases cs with
  | nil => rw [subCss_nil] at hout; exact absurd hout (by simp)
  | cons c cs₂ =>
    by_cases hhit : c = a₂ ∧ cssHit o₂ cs₂
    · exfalso
      obtain ⟨hc, t, r, hdec, ht⟩ := hhit
      subst hc
      rw [hdec, subCss_hit c o₂ n₂ t r ht] at hout
      have hcd : c = d := (List.cons.injEq _ _ _ _ ▸ hout).1
      rcases hd with hdi | hdt
      · rw [← hcd] at hdi
        rw [ha2i] at hdi
        exact Bool.noConfusion hdi
      · rw [← hcd] at hdt
        rw [ha2t] at hdt
        exact Bool.noConfusion hdt
    · rw [subCss_miss a₂ o₂ n₂ c cs₂ hhit] at hout
      have hcd := List.cons.injEq _ _ _ _ ▸ hout
      exact ⟨cs₂, by rw [hcd.1], hcd.2⟩

theorem subCss_out_prefix (a₂ : Char) (o₂ n₂ : List Char)
    (ha2i : isIdentC a₂ = false) (ha2t : isTrailC a₂ = false) :
    ∀ (pre : List Char), (∀ c ∈ pre, isIdentC c = true ∨ isTrailC c = true) →
      ∀ (cs out' : List Char), subCss a₂ o₂ n₂ cs = pre ++ out' →
        ∃ cs', cs = pre ++ cs' ∧ subCss a₂ o₂ n₂ cs' = out' := by
  intro pre
  induction pre with
  | nil =>
    intro _ cs out' hout
    exact ⟨cs, rfl, by simpa using hout⟩
  | cons d pre ih =>
    intro hpre cs out' hout
    rw [List.cons_append] at hout
    obtain ⟨cs', hcs, hout'⟩ := subCss_out_cons a₂ o₂ n₂ ha2i ha2t d
      (hpre d (List.mem_cons_self d pre)) cs (pre ++ out') hout
    obtain ⟨cs'', hcs', hout''⟩ := ih
      (fun e he => hpre e (List.mem_cons_of_mem d he)) cs' out' hout'
    exact ⟨cs'', by rw [hcs, hcs']; simp, hout''⟩

theorem ident_ne_anchor (c a : Char) (hc : isIdentC c = true)
    (ha : isIdentC a = false) : c ≠ a := by
  intro h
  rw [h, ha] at hc
  exact Bool.noConfusion hc

theorem trail_ne_anchor (c a : Char) (hc : isTrailC c = true)
    (ha : isTrailC a = false) : c ≠ a := by
  intro h
  rw [h, ha] at hc
  exact Bool.noConfusion hc

theorem subCss_comm_hit
    (a₁ a₂ : Char) (o₁ n₁ o₂ n₂ : List Char)
    (ha2i : isIdentC a₂ = false) (ha2t : isTrailC a₂ = false)
    (ho1 : ∀ c ∈ o₁, isIdentC c = true)
    (ho2 : ∀ c ∈ o₂, isIdentC c = true)
    (hn1 : ∀ c ∈ n₁, isIdentC c = true)
    (h12 : n₁ ≠ o₂)
    (t : Char) (r : List Char) (ht : isTrailC t = true)
    (hmiss2 : ¬(a₁ = a₂ ∧ cssHit o₂ (o₁ ++ t :: r)))
    (hr : subCss a₁ o₁ n₁ (subCss a₂ o₂ n₂ r) = subCss a₂ o₂ n₂ (subCss a₁ o₁ n₁ r)) :
    subCss a₁ o₁ n₁ (subCss a₂ o₂ n₂ (a₁ :: (o₁ ++ t :: r))) =
      subCss a₂ o₂ n₂ (subCss a₁ o₁ n₁ (a₁ :: (o₁ ++ t :: r))) := by
  have hwalk1 : ∀ c ∈ o₁ ++ [t], c ≠ a₂ := by
    intro c hc
    rcases List.mem_append.mp hc with h | h
    · exact ident_ne_anchor c a₂ (ho1 c h) ha2i
    · rw [List.mem_singleton.mp h]
      exact trail_ne_anchor t a₂ ht ha2t
  have hwalkn : ∀ c ∈ n₁ ++ [t], c ≠ a₂ := by
    intro c hc
    rcases List.mem_append.mp hc with h | h
    · exact ident_ne_anchor c a₂ (hn1 c h) ha2i
    · rw [List.mem_singleton.mp h]
      exact trail_ne_anchor t a₂ ht ha2t
  have hassoc : ∀ (X : List Char), o₁ ++ t :: X = (o₁ ++ [t]) ++ X := by
    intro X
    simp
  have hassocn : ∀ (X : List Char), n₁ ++ t :: X = (n₁ ++ [t]) ++ X := by
    intro X
    simp
  have hE1 : subCss a₂ o₂ n₂ (a₁ :: (o₁ ++ t :: r)) =
      a₁ :: (o₁ ++ t :: subCss a₂ o₂ n₂ r) := by
    by_cases haa : a₁ = a₂
    · have hno : ¬ cssHit o₂ (o₁ ++ t :: r) := fun hh => hmiss2 ⟨haa, hh⟩
      rw [subCss_miss a₂ o₂ n₂ a₁ (o₁ ++ t :: r) (fun h => hno h.2)]
      rw [hassoc r, subCss_walk a₂ o₂ n₂ (o₁ ++ [t]) r hwalk1, ← hassoc]
    · have : ∀ c ∈ a₁ :: (o₁ ++ [t]), c ≠ a₂ := by
        intro c hc
        rcases List.mem_cons.mp hc with h | h
        · rw [h]; exact haa
        · exact hwalk1 c h
      have hshape : a₁ :: (o₁ ++ t :: r) = (a₁ :: (o₁ ++ [t])) ++ r := by simp
      rw [hshape, subCss_walk a₂ o₂ n₂ _ r this]
      simp
  have hE3 : ∀ (Z : List Char), subCss a₂ o₂ n₂ (a₁ :: (n₁ ++ t :: Z)) =
      a₁ :: (n₁ ++ t :: subCss a₂ o₂ n₂ Z) := by
    intro Z
    by_cases haa : a₁ = a₂
    · have hno : ¬ cssHit o₂ (n₁ ++ t :: Z) :=
        no_hit_ident_neq n₁ o₂ t Z hn1 ho2 h12 ht
      rw [subCss_miss a₂ o₂ n₂ a₁ (n₁ ++ t :: Z) (fun h => hno h.2)]
      rw [hassocn Z, subCss_walk a₂ o₂ n₂ (n₁ ++ [t]) Z hwalkn, ← hassocn]
    · have : ∀ c ∈ a₁ :: (n₁ ++ [t]), c ≠ a₂ := by
        intro c hc
        rcases List.mem_cons.mp hc with h | h
        · rw [h]; exact haa
        · exact hwalkn c h
      have hshape : a₁ :: (n₁ ++ t :: Z) = (a₁ :: (n₁ ++ [t])) ++ Z := by simp
      rw [hshape, subCss_walk a₂ o₂ n₂ _ Z this]
      simp
  rw [hE1, subCss_hit a₁ o₁ n₁ t (subCss a₂ o₂ n₂ r) ht,
    subCss_hit a₁ o₁ n₁ t r ht, hE3 (subCss a₁ o₁ n₁ r), hr]

theorem subCss_comm_aux
    (a₁ a₂ : Char) (o₁ n₁ o₂ n₂ : List Char)
    (ha1i : isIdentC a₁ = false) (ha1t : isTrailC a₁ = false)
    (ha2i : isIdentC a₂ = false) (ha2t : isTrailC a₂ = false)
    (ho1 : ∀ c ∈ o₁, isIdentC c = true) (ho2 : ∀ c ∈ o₂, isIdentC c = true)
    (hn1 : ∀ c ∈ n₁, isIdentC c = true) (hn2 : ∀ c ∈ n₂, isIdentC c = true)
    (hdist : ¬(a₁ = a₂ ∧ o₁ = o₂)) (h12 : n₁ ≠ o₂) (h21 : n₂ ≠ o₁) :
    ∀ (N : Nat) (cs : List Char), cs.length ≤ N →
      subCss a₁ o₁ n₁ (subCss a₂ o₂ n₂ cs) = subCss a₂ o₂ n₂ (subCss a₁ o₁ n₁ cs) := by
  intro N
  induction N with
  | zero =>
    intro cs hlen
    have : cs = [] := List.length_eq_zero.mp (Nat.le_zero.mp hlen)
    subst this
    rfl
  | succ n ih =>
    intro cs hlen
    cases cs with
    | nil => rfl
    | cons c cs' =>
      have hlen' : cs'.length ≤ n := by simp at hlen; omega
      by_cases H1 : c = a₁ ∧ cssHit o₁ cs'
      · by_cases H2 : c = a₂ ∧ cssHit o₂ cs'
        · exfalso
          obtain ⟨hc1, t₁, r₁, hdec1, ht1⟩ := H1
          obtain ⟨hc2, t₂, r₂, hdec2, ht2⟩ := H2
          have heq : o₁ ++ t₁ :: r₁ = o₂ ++ t₂ :: r₂ := by rw [← hdec1, ← hdec2]
          have ho12 := (ident_trail_unique o₁ o₂ t₁ t₂ r₁ r₂ ho1 ho2 ht1 ht2 heq).1
          exact hdist ⟨by rw [← hc1, ← hc2], ho12⟩
        · obtain ⟨hc1, t, r, hdec, ht⟩ := H1
          subst hc1
          rw [hdec]
          have hrlen : r.length ≤ n := by
            have := congrArg List.length hdec
            simp at this
            omega
          refine subCss_comm_hit c a₂ o₁ n₁ o₂ n₂ ha2i ha2t ho1 ho2 hn1 h12 t r ht
            ?_ (ih r hrlen)
          rw [← hdec]
          exact fun h => H2 ⟨h.1, h.2⟩
      · by_cases H2 : c = a₂ ∧ cssHit o₂ cs'
        · obtain ⟨hc2, t, r, hdec, ht⟩ := H2
          subst hc2
          rw [hdec]
          have hrlen : r.length ≤ n := by
            have := congrArg List.length hdec
            simp at this
            omega
          refine (subCss_comm_hit c a₁ o₂ n₂ o₁ n₁ ha1i ha1t ho2 ho1 hn2 h21 t r ht
            ?_ (ih r hrlen).symm).symm
          rw [← hdec]
          exact fun h => H1 ⟨h.1, h.2⟩
        · rw [subCss_miss a₂ o₂ n₂ c cs' H2, subCss_miss a₁ o₁ n₁ c cs' H1]
          have hm1 : ¬(c = a₁ ∧ cssHit o₁ (subCss a₂ o₂ n₂ cs')) := by
            rintro ⟨hc, t₁, r₁, hdec, ht1⟩
            refine H1 ⟨hc, ?_⟩
            obtain ⟨cs₃, hcs3, _⟩ := subCss_out_prefix a₂ o₂ n₂ ha2i ha2t
              (o₁ ++ [t₁])
              (by
                intro e he
                rcases List.mem_append.mp he with h | h
                · exact Or.inl (ho1 e h)
                · rw [List.mem_singleton.mp h]
                  exact Or.inr ht1)
              cs' r₁ (by rw [hdec]; simp)
            exact ⟨t₁, cs₃, by rw [hcs3]; simp, ht1⟩
          have hm2 : ¬(c = a₂ ∧ cssHit o₂ (subCss a₁ o₁ n₁ cs')) := by
            rintro ⟨hc, t₂, r₂, hdec, ht2⟩
            refine H2 ⟨hc, ?_⟩
            obtain ⟨cs₃, hcs3, _⟩ := subCss_out_prefix a₁ o₁ n₁ ha1i ha1t
              (o₂ ++ [t₂])
              (by
                intro e he
                rcases List.mem_append.mp he with h | h
                · exact Or.inl (ho2 e h)
                · rw [List.mem_singleton.mp h]
                  exact Or.inr ht2)
              cs' r₂ (by rw [hdec]; simp)
            exact ⟨t₂, cs₃, by rw [hcs3]; simp, ht2⟩
          rw [subCss_miss a₁ o₁ n₁ c (subCss a₂ o₂ n₂ cs') hm1,
            subCss_miss a₂ o₂ n₂ c (subCss a₁ o₁ n₁ cs') hm2,
            ih cs' hlen']

theorem subCss_comm
    (a₁ a₂ : Char) (o₁ n₁ o₂ n₂ : List Char)
    (ha1i : isIdentC a₁ = false) (ha1t : isTrailC a₁ = false)
    (ha2i : isIdentC a₂ = false) (ha2t : isTrailC a₂ = false)
    (ho1 : ∀ c ∈ o₁, isIdentC c = true) (ho2 : ∀ c ∈ o₂, isIdentC c = true)
    (hn1 : ∀ c ∈ n₁, isIdentC c = true) (hn2 : ∀ c ∈ n₂, isIdentC c = true)
    (hdist : ¬(a₁ = a₂ ∧ o₁ = o₂)) (h12 : n₁ ≠ o₂) (h21 : n₂ ≠ o₁)
    (cs : List Char) :
    subCss a₁ o₁ n₁ (subCss a₂ o₂ n₂ cs) = subCss a₂ o₂ n₂ (subCss a₁ o₁ n₁ cs) :=
  subCss_comm_aux a₁ a₂ o₁ n₁ o₂ n₂ ha1i ha1t ha2i ha2t ho1 ho2 hn1 hn2 hdist
    h12 h21 cs.length cs (Nat.le_refl _)

theorem applyPairCss_comm (p q : List Char × List Char)
    (hp1 : ∀ c ∈ p.1, isIdentC c = true) (hp2 : ∀ c ∈ p.2, isIdentC c = true)
    (hq1 : ∀ c ∈ q.1, isIdentC c = true) (hq2 : ∀ c ∈ q.2, isIdentC c = true)
    (hkeys : p.1 ≠ q.1) (hpq : p.2 ≠ q.1) (hqp : q.2 ≠ p.1) (cs : List Char) :
    applyPairCss p (applyPairCss q cs) = applyPairCss q (applyPairCss p cs) := by
  have hdoti : isIdentC '.' = false := by decide
  have hdott : isTrailC '.' = false := by decide
  have hhashi : isIdentC '#' = false := by decide
  have hhasht : isTrailC '#' = false := by decide
  have hda : ('.' : Char) ≠ '#' := by decide
  have cDH : ∀ X, subCss '.' p.1 p.2 (subCss '#' q.1 q.2 X) =
      subCss '#' q.1 q.2 (subCss '.' p.1 p.2 X) :=
    fun X => subCss_comm '.' '#' p.1 p.2 q.1 q.2 hdoti hdott hhashi hhasht
      hp1 hq1 hp2 hq2 (fun h => hda h.1) hpq hqp X
  have cDD : ∀ X, subCss '.' p.1 p.2 (subCss '.' q.1 q.2 X) =
      subCss '.' q.1 q.2 (subCss '.' p.1 p.2 X) :=
    fun X => subCss_comm '.' '.' p.1 p.2 q.1 q.2 hdoti hdott hdoti hdott
      hp1 hq1 hp2 hq2 (fun h => hkeys h.2) hpq hqp X
  have cHH : ∀ X, subCss '#' p.1 p.2 (subCss '#' q.1 q.2 X) =
      subCss '#' q.1 q.2 (subCss '#' p.1 p.2 X) :=
    fun X => subCss_comm '#' '#' p.1 p.2 q.1 q.2 hhashi hhasht hhashi hhasht
      hp1 hq1 hp2 hq2 (fun h => hkeys h.2) hpq hqp X
  have cHD : ∀ X, subCss '#' p.1 p.2 (subCss '.' q.1 q.2 X) =
      subCss '.' q.1 q.2 (subCss '#' p.1 p.2 X) :=
    fun X => subCss_comm '#' '.' p.1 p.2 q.1 q.2 hhashi hhasht hdoti hdott
      hp1 hq1 hp2 hq2 (fun h => hda h.1.symm) hpq hqp X
  show subCss '#' p.1 p.2 (subCss '.' p.1 p.2
      (subCss '#' q.1 q.2 (subCss '.' q.1 q.2 cs))) = _
  rw [cDH (subCss '.' q.1 q.2 cs), cDD cs, cHH (subCss '.' q.1 q.2 (subCss '.' p.1 p.2 cs)),
    cHD (subCss '.' p.1 p.2 cs)]
  rfl

/-- The hypotheses of claim C8 on a CSS replacement mapping, strengthened
to identifier-character keys and tokens: pairwise distinct keys, keys and
tokens made of CSS identifier characters, and no token equal to any key. -/
def goodCssMap (m : List (List Char × List Char)) : Prop :=
  (m.map Prod.fst).Nodup ∧
  (∀ p ∈ m, (∀ c ∈ p.1, isIdentC c = true) ∧ (∀ c ∈ p.2, isIdentC c = true)) ∧
  (∀ p ∈ m, ∀ q ∈ m, p.2 ≠ q.1)

theorem goodCssMap_tail (x : List Char × List Char)
    (l : List (List Char × List Char)) (h : goodCssMap (x :: l)) : goodCssMap l := by
  obtain ⟨hnd, hid, htok⟩ := h
  refine ⟨?_, ?_, ?_⟩
  · simpa using List.Nodup.of_cons (by simpa using hnd)
  · exact fun p hp => hid p (List.mem_cons_of_mem x hp)
  · exact fun p hp q hq =>
      htok p (List.mem_cons_of_mem x hp) q (List.mem_cons_of_mem x hq)

theorem goodCssMap_perm (m m' : List (List Char × List Char)) (hperm : m.Perm m')
    (h : goodCssMap m) : goodCssMap m' := by
  obtain ⟨hnd, hid, htok⟩ := h
  refine ⟨?_, ?_, ?_⟩
  · exact ((hperm.map Prod.fst).nodup_iff).mp hnd
  · exact fun p hp => hid p (hperm.mem_iff.mpr hp)
  · exact fun p hp q hq => htok p (hperm.mem_iff.mpr hp) q (hperm.mem_iff.mpr hq)

theorem replace_css_perm :
    ∀ (m m' : List (List Char × List Char)), m.Perm m' → goodCssMap m →
      ∀ cs, replace_classnames_ids_css cs m = replace_classnames_ids_css cs m' := by
  intro m m' hperm
  induction hperm with
  | nil => intro _ cs; rfl
  | cons x hl ih =>
    intro hgood cs
    show List.foldl _ (applyPairCss x cs) _ = List.foldl _ (applyPairCss x cs) _
    exact ih (goodCssMap_tail x _ hgood) (applyPairCss x cs)
  | swap x y l =>
    intro hgood cs
    show List.foldl _ (applyPairCss x (applyPairCss y cs)) l =
      List.foldl _ (applyPairCss y (applyPairCss x cs)) l
    have hx : x ∈ y :: x :: l := List.mem_cons_of_mem y (List.mem_cons_self x l)
    have hy : y ∈ y :: x :: l := List.mem_cons_self y _
    obtain ⟨hnd, hid, htok⟩ := hgood
    have hxy : x.1 ≠ y.1 := by
      simp only [List.map_cons, List.nodup_cons, List.mem_cons] at hnd
      exact fun h => hnd.1 (Or.inl h.symm)
    rw [applyPairCss_comm x y (hid x hx).1 (hid x hx).2 (hid y hy).1 (hid y hy).2
      hxy (htok x hx y hy) (htok y hy x hx) cs]
  | trans h₁ h₂ ih₁ ih₂ =>
    intro hgood cs
    rw [ih₁ hgood cs, ih₂ (goodCssMap_perm _ _ h₁ hgood) cs]

theorem list_toFinset_dedup (l : List (List Char)) : l.dedup.toFinset = l.toFinset := by
  apply Finset.ext
  intro x
  simp [List.mem_dedup]

theorem buildRepl_of_scan_length (supply : Nat → Nat → Nat) (cls ids : List (List Char)) :
    (buildRepl supply (cls.dedup ++ ids.dedup)).length = (cls ++ ids).toFinset.card := by
  rw [buildRepl_length, List.toFinset_append, List.toFinset_append,
    list_toFinset_dedup, list_toFinset_dedup]

/-! ### The claims -/

/-- The stream of random choices used in the concrete example runs. -/
def supply0 : Nat → Nat → Nat := fun _ _ => 0

/-- Example file system for the mapping-phase claims: one readable HTML
file in which `nav` occurs both as a class name and as an id. -/
def fsC1 : FileSys :=
  [("index.html", Except.ok (("<div class=\"nav\" id=\"nav\">" : String).toList))]

/-- Scan-phase output of `fsC1`. -/
def logsC1 : List LogMsg := [LogMsg.scanningFile "index.html"]

/-- Class names found in `fsC1`. -/
def clsC1 : List (List Char) := [(("nav" : String).toList)]

/-- Ids found in `fsC1`. -/
def idsC1 : List (List Char) := [(("nav" : String).toList)]

/-- Claim C1: for every run whose scan phase finds N distinct class/ID
identifiers across all readable input files, the replacement map built in
the mapping phase has exactly N entries, and every value is an 8-character
string of ASCII letters or digits. -/
theorem claim_C1_map_size_and_tokens (fs : FileSys) (supply : Nat → Nat → Nat)
    (logs : List LogMsg) (cls ids : List (List Char))
    (hscan : scanPhase fs = Except.ok (logs, cls, ids)) :
    (buildRepl supply (cls.dedup ++ ids.dedup)).length = (cls ++ ids).toFinset.card ∧
    ∀ p ∈ buildRepl supply (cls.dedup ++ ids.dedup),
      p.2.length = 8 ∧ ∀ c ∈ p.2, c.isAlphanum = true := by
  refine ⟨buildRepl_of_scan_length supply cls ids, ?_⟩
  intro p hp
  rcases buildReplAux_values supply (cls.dedup ++ ids.dedup) [] 0 p hp with h | h
  · simp at h
  · obtain ⟨i, hi⟩ := h
    rw [hi]
    exact ⟨generate_random_string_length 8 (supply i),
      generate_random_string_alnum 8 (supply i)⟩

/-- Witness for claim C1 at the concrete run `fsC1`. -/
theorem claim_C1_witness :
    (buildRepl supply0 (clsC1.dedup ++ idsC1.dedup)).length =
      (clsC1 ++ idsC1).toFinset.card ∧
    ∀ p ∈ buildRepl supply0 (clsC1.dedup ++ idsC1.dedup),
      p.2.length = 8 ∧ ∀ c ∈ p.2, c.isAlphanum = true :=
  claim_C1_map_size_and_tokens fsC1 supply0 logsC1 clsC1 idsC1 (by decide)

/-- Claim C4: class names and ids share one namespace: an identifier found
both as a class name and as an id has exactly one entry in the replacement
map, and entries with the same key carry the same token, so both uses are
rewritten to the same token. -/
theorem claim_C4_shared_namespace (fs : FileSys) (supply : Nat → Nat → Nat)
    (logs : List LogMsg) (cls ids : List (List Char)) (x : List Char)
    (hscan : scanPhase fs = Except.ok (logs, cls, ids))
    (hcls : x ∈ cls) (hids : x ∈ ids) :
    x ∈ (buildRepl supply (cls.dedup ++ ids.dedup)).map Prod.fst ∧
    ((buildRepl supply (cls.dedup ++ ids.dedup)).map Prod.fst).Nodup ∧
    ∀ p ∈ buildRepl supply (cls.dedup ++ ids.dedup),
      ∀ q ∈ buildRepl supply (cls.dedup ++ ids.dedup), p.1 = q.1 → p.2 = q.2 := by
  have hnd := buildRepl_keys_nodup supply (cls.dedup ++ ids.dedup)
  refine ⟨?_, hnd, ?_⟩
  · refine (buildRepl_mem_keys supply _ x).mpr ?_
    exact List.mem_append.mpr (Or.inl (List.mem_dedup.mpr hcls))
  · intro p hp q hq hpq
    have := List.inj_on_of_nodup_map hnd hp hq hpq
    rw [this]

/-- Witness for claim C4: `nav` occurs in `fsC1` both as a class name and
as an id. -/
theorem claim_C4_witness :
    (("nav" : String).toList) ∈
      (buildRepl supply0 (clsC1.dedup ++ idsC1.dedup)).map Prod.fst ∧
    ((buildRepl supply0 (clsC1.dedup ++ idsC1.dedup)).map Prod.fst).Nodup ∧
    ∀ p ∈ buildRepl supply0 (clsC1.dedup ++ idsC1.dedup),
      ∀ q ∈ buildRepl supply0 (clsC1.dedup ++ idsC1.dedup), p.1 = q.1 → p.2 = q.2 :=
  claim_C4_shared_namespace fsC1 supply0 logsC1 clsC1 idsC1
    (("nav" : String).toList) (by decide) (by decide) (by decide)

/-- Claim C5: in both phases a file-not-found or permission-denied failure
is caught, logged, and only skips that file: when no file raises any other
exception the run completes, logs the final completion message and still
processes every readable file; a file raising any other exception makes
`process_files` propagate the exception instead of returning normally. -/
theorem claim_C5_error_handling :
    (∀ (fs : FileSys) (supply : Nat → Nat → Nat),
      (∀ pr ∈ fs, pr.2 ≠ Except.error PyErr.other) →
      ∃ logs written, process_files fs supply = Except.ok (logs, written) ∧
        LogMsg.complete ∈ logs ∧
        (∀ pr ∈ fs, ∀ content, pr.2 = Except.ok content →
          ∃ out, (pr.1, out) ∈ written) ∧
        (∀ pr ∈ fs,
          (pr.2 = Except.error PyErr.notFound → LogMsg.fileNotFound pr.1 ∈ logs) ∧
          (pr.2 = Except.error PyErr.permission →
            LogMsg.permissionError pr.1 ∈ logs))) ∧
    (∀ (fs : FileSys) (supply : Nat → Nat → Nat)
      (pr : String × Except PyErr (List Char)), pr ∈ fs →
      pr.2 = Except.error PyErr.other →
      ∀ v, process_files fs supply ≠ Except.ok v) :=
  ⟨process_files_ok, process_files_crash⟩

/-- Example file system for claim C5: a readable file, a missing file and
an unreadable file; every remaining file is still processed. -/
def fsC5 : FileSys :=
  [("index.html", Except.ok (("<div class=\"nav\">" : String).toList)),
   ("script.js", Except.error PyErr.notFound),
   ("style.css", Except.error PyErr.permission)]

/-- Example file system for claim C5 in which one file raises an exception
of another kind. -/
def fsC5crash : FileSys :=
  [("index.html", Except.ok (("<div class=\"nav\">" : String).toList)),
   ("script.js", Except.error PyErr.other)]

/-- Witness for claim C5 at the concrete runs `fsC5` and `fsC5crash`. -/
theorem claim_C5_witness :
    (∃ logs written, process_files fsC5 supply0 = Except.ok (logs, written) ∧
      LogMsg.complete ∈ logs ∧
      (∀ pr ∈ fsC5, ∀ content, pr.2 = Except.ok content →
        ∃ out, (pr.1, out) ∈ written) ∧
      (∀ pr ∈ fsC5,
        (pr.2 = Except.error PyErr.notFound → LogMsg.fileNotFound pr.1 ∈ logs) ∧
        (pr.2 = Except.error PyErr.permission →
          LogMsg.permissionError pr.1 ∈ logs))) ∧
    (∀ v, process_files fsC5crash supply0 ≠ Except.ok v) :=
  ⟨claim_C5_error_handling.1 fsC5 supply0 (by decide),
   claim_C5_error_handling.2 fsC5crash supply0
     ("script.js", Except.error PyErr.other) (by decide) (by decide)⟩

/-- Replacement mapping of the CSS rewriting example of claim C2: the two
selector identifiers are mapped, and the non-selector words `color` and
`red` are also mapped to show that their occurrences stay untouched. -/
def mapC2 : List (List Char × List Char) :=
  [((("hero" : String).toList), (("AbCdEfGh" : String).toList)),
   ((("nav" : String).toList), (("Zz11Qq22" : String).toList)),
   ((("color" : String).toList), (("Cc00Cc00" : String).toList)),
   ((("red" : String).toList), (("Rr00Rr00" : String).toList))]

/-- Claim C2: the CSS rewriter replaces a mapped identifier exactly when
it directly follows `.` or `#` and is directly followed by whitespace or
one of `{`, `:`, `,`, keeping the trailing character; at any position not
of that shape the character is copied unchanged, so occurrences such as
`color` and `red` in `.hero { color: red; }` stay untouched even when they
are mapped. -/
theorem claim_C2_css_rewrite :
    (∀ (o n rest : List Char) (t : Char), isTrailC t = true →
      subCss '.' o n ('.' :: (o ++ t :: rest)) =
        '.' :: (n ++ t :: subCss '.' o n rest) ∧
      subCss '#' o n ('#' :: (o ++ t :: rest)) =
        '#' :: (n ++ t :: subCss '#' o n rest)) ∧
    (∀ (o n cs : List Char) (c : Char), ¬(c = '.' ∧ cssHit o cs) →
      subCss '.' o n (c :: cs) = c :: subCss '.' o n cs) ∧
    (∀ (o n cs : List Char) (c : Char), ¬(c = '#' ∧ cssHit o cs) →
      subCss '#' o n (c :: cs) = c :: subCss '#' o n cs) ∧
    replace_classnames_ids_css ((".hero { color: red; }\n#nav," : String).toList)
      mapC2 = ((".AbCdEfGh { color: red; }\n#Zz11Qq22," : String).toList) :=
  ⟨fun o n rest t ht => ⟨subCss_hit '.' o n t rest ht, subCss_hit '#' o n t rest ht⟩,
   fun o n cs c h => subCss_miss '.' o n c cs h,
   fun o n cs c h => subCss_miss '#' o n c cs h,
   by decide⟩

/-- Witness for claim C2: a hit position with `hero` followed by a space,
and a miss position at the `c` of `color`. -/
theorem claim_C2_witness :
    (subCss '.' (("hero" : String).toList) (("AbCdEfGh" : String).toList)
        ('.' :: ((("hero" : String).toList) ++ ' ' :: [])) =
      '.' :: ((("AbCdEfGh" : String).toList) ++ ' ' ::
        subCss '.' (("hero" : String).toList) (("AbCdEfGh" : String).toList) []) ∧
     subCss '#' (("hero" : String).toList) (("AbCdEfGh" : String).toList)
        ('#' :: ((("hero" : String).toList) ++ ' ' :: [])) =
      '#' :: ((("AbCdEfGh" : String).toList) ++ ' ' ::
        subCss '#' (("hero" : String).toList) (("AbCdEfGh" : String).toList) [])) ∧
    subCss '.' (("hero" : String).toList) (("AbCdEfGh" : String).toList)
        ('c' :: (("olor" : String).toList)) =
      'c' :: subCss '.' (("hero" : String).toList) (("AbCdEfGh" : String).toList)
        (("olor" : String).toList) :=
  ⟨claim_C2_css_rewrite.1 (("hero" : String).toList) (("AbCdEfGh" : String).toList)
      [] ' ' (by decide),
   claim_C2_css_rewrite.2.1 (("hero" : String).toList) (("AbCdEfGh" : String).toList)
      (("olor" : String).toList) 'c' (fun h => absurd h.1 (by decide))⟩

/-- Replacement mapping used in the `querySelector` examples. -/
def mapC3 : List (List Char × List Char) :=
  [((("nav" : String).toList), (("AbCd1234" : String).toList))]

/-- Claim C3 counterexample: the claim states that
`querySelector("#nav")` yields no class identifier and is not rewritten,
but the scanner extracts `nav` as a class name from it (the unescaped `.`
of the pattern matches the `#`) and the rewriter rewrites the call,
changing its argument. -/
theorem claim_C3_counterexample :
    (find_classnames_ids (("querySelector(\"#nav\")" : String).toList)).1 =
      [(("nav" : String).toList)] ∧
    replace_classnames_ids (("querySelector(\"#nav\")" : String).toList) mapC3 =
      (("querySelector(\".AbCd1234\")" : String).toList) ∧
    (("querySelector(\".AbCd1234\")" : String).toList) ≠
      (("querySelector(\"#nav\")" : String).toList) :=
  ⟨by decide, by decide, by decide⟩

/-- Claim C3 amended: the scanner extracts `X` from a `querySelector` or
`querySelectorAll` call exactly when the quoted argument is ONE arbitrary
non-newline character followed by a nonempty quote-free `X` (the `.` of
the source pattern is an unescaped regex wildcard), and the rewriter
rewrites exactly the calls of that shape, normalizing the leading argument
character to a literal dot; in particular `querySelector("#nav")` yields
the class identifier `nav` and is rewritten. -/
theorem claim_C3_amended :
    (∀ (name cs x : List Char) (k : Nat),
      mFindCallDot name cs = some (x, k) ↔
        ∃ q1 c0 q2 rest,
          cs = (name ++ ['(']) ++ q1 :: c0 :: (x ++ q2 :: ')' :: rest) ∧
          isQuoteC q1 = true ∧ c0 ≠ '\n' ∧ isQuoteC q2 = true ∧ x ≠ [] ∧
          (∀ c ∈ x, isQuoteC c = false) ∧ k = name.length + x.length + 4) ∧
    (∀ (name o n : List Char) (prev : Option Char) (cs rep : List Char) (k : Nat),
      mSubCallDot name o n prev cs = some (rep, k) ↔
        isBoundary prev = true ∧ ∃ q1 c0 q2 rest,
          cs = (name ++ ['(']) ++ q1 :: c0 :: (o ++ q2 :: ')' :: rest) ∧
          isQuoteC q1 = true ∧ c0 ≠ '\n' ∧ isQuoteC q2 = true ∧
          rep = name ++ '(' :: '"' :: '.' :: (n ++ ['"', ')']) ∧
          k = name.length + o.length + 4) ∧
    (find_classnames_ids (("querySelector(\"#nav\")" : String).toList)).1 =
      [(("nav" : String).toList)] ∧
    replace_classnames_ids (("querySelector(\"#nav\")" : String).toList) mapC3 =
      (("querySelector(\".AbCd1234\")" : String).toList) :=
  ⟨mFindCallDot_eq_some, mSubCallDot_eq_some, by decide, by decide⟩

/-- Replacement mapping of the `getElementById` example of claim C6. -/
def mapC6 : List (List Char × List Char) :=
  [((("nav" : String).toList), (("AbCd1234" : String).toList))]

/-- Replacement mapping of the `class` attribute example of claim C6. -/
def mapC6b : List (List Char × List Char) :=
  [((("hero" : String).toList), (("Qq22Ww33" : String).toList))]

/-- Claim C6: every rewritten occurrence is emitted with double quotes
around the new token, whatever the original quote characters were: the
three rewriter matcher families accept any mix of single and double quotes
around the old name but always emit `"` around the new name, and two
end-to-end runs on single-quoted sources produce double-quoted output. -/
theorem claim_C6_double_quote_normalization :
    (∀ (attr o n : List Char) (prev : Option Char) (cs rep : List Char) (k : Nat),
      mSubAttr attr o n prev cs = some (rep, k) ↔
        ∃ q1 q2 rest, cs = attr ++ q1 :: (o ++ q2 :: rest) ∧ isQuoteC q1 = true ∧
          isQuoteC q2 = true ∧ rep = attr ++ '"' :: (n ++ ['"']) ∧
          k = attr.length + o.length + 1) ∧
    (∀ (name o n : List Char) (prev : Option Char) (cs rep : List Char) (k : Nat),
      mSubCallDot name o n prev cs = some (rep, k) ↔
        isBoundary prev = true ∧ ∃ q1 c0 q2 rest,
          cs = (name ++ ['(']) ++ q1 :: c0 :: (o ++ q2 :: ')' :: rest) ∧
          isQuoteC q1 = true ∧ c0 ≠ '\n' ∧ isQuoteC q2 = true ∧
          rep = name ++ '(' :: '"' :: '.' :: (n ++ ['"', ')']) ∧
          k = name.length + o.length + 4) ∧
    (∀ (name o n : List Char) (prev : Option Char) (cs rep : List Char) (k : Nat),
      mSubCallPlain name o n prev cs = some (rep, k) ↔
        isBoundary prev = true ∧ ∃ q1 q2 rest,
          cs = (name ++ ['(']) ++ q1 :: (o ++ q2 :: ')' :: rest) ∧
          isQuoteC q1 = true ∧ isQuoteC q2 = true ∧
          rep = name ++ '(' :: '"' :: (n ++ ['"', ')']) ∧
          k = name.length + o.length + 3) ∧
    replace_classnames_ids (("document.getElementById('nav')" : String).toList)
      mapC6 = (("document.getElementById(\"AbCd1234\")" : String).toList) ∧
    replace_classnames_ids (("<div class='hero'>" : String).toList) mapC6b =
      (("<div class=\"Qq22Ww33\">" : String).toList) :=
  ⟨mSubAttr_eq_some, mSubCallDot_eq_some, mSubCallPlain_eq_some, by decide, by decide⟩

/-- Claim C7: a `class` attribute whose quoted value holds several
space-separated class names is captured as ONE identifier: the whole
quoted value, spaces included; v ranges over every possible nonempty
quote-free attribute value. -/
theorem claim_C7_multiclass_single_identifier (v : List Char) (hne : v ≠ [])
    (hq : ∀ c ∈ v, isQuoteC c = false) :
    scanA (mFindAttr clsAttr) (clsAttr ++ '"' :: (v ++ ['"'])) = [v] ∧
    (find_classnames_ids (("<div class=\"btn primary\">" : String).toList)).1 =
      [(("btn primary" : String).toList)] ∧
    (("btn" : String).toList) ∉
      (find_classnames_ids (("<div class=\"btn primary\">" : String).toList)).1 ∧
    (("primary" : String).toList) ∉
      (find_classnames_ids (("<div class=\"btn primary\">" : String).toList)).1 := by
  refine ⟨?_, by decide, by decide, by decide⟩
  have hm : mFindAttr clsAttr (clsAttr ++ '"' :: (v ++ ['"'])) =
      some (v, clsAttr.length + v.length + 1) :=
    (mFindAttr_eq_some clsAttr _ v _).mpr
      ⟨'"', '"', [], rfl, by decide, by decide, hne, hq, rfl⟩
  have hform : clsAttr ++ '"' :: (v ++ ['"']) =
      'c' :: ('l' :: 'a' :: 's' :: 's' :: '=' :: '"' :: (v ++ ['"'])) := rfl
  rw [hform] at hm
  rw [hform, scanA_cons_some (mFindAttr clsAttr) 'c' _ v _ hm]
  have hlen : ('l' :: 'a' :: 's' :: 's' :: '=' :: '"' :: (v ++ ['"'])).length ≤
      clsAttr.length + v.length + 1 := by
    rw [show clsAttr.length = 6 from by decide]
    simp
    omega
  rw [List.drop_eq_nil_of_le hlen]
  rfl

/-- Witness for claim C7 at the value `btn primary`. -/
theorem claim_C7_witness :
    scanA (mFindAttr clsAttr)
      (clsAttr ++ '"' :: ((("btn primary" : String).toList) ++ ['"'])) =
      [(("btn primary" : String).toList)] ∧
    (find_classnames_ids (("<div class=\"btn primary\">" : String).toList)).1 =
      [(("btn primary" : String).toList)] ∧
    (("btn" : String).toList) ∉
      (find_classnames_ids (("<div class=\"btn primary\">" : String).toList)).1 ∧
    (("primary" : String).toList) ∉
      (find_classnames_ids (("<div class=\"btn primary\">" : String).toList)).1 :=
  claim_C7_multiclass_single_identifier (("btn primary" : String).toList)
    (by decide) (by decide)

/-- Mapping for the CSS half of the C8 counterexample: distinct keys, no
token equal to any key, but the token of `a` is not made of identifier
characters. -/
def mapC8css : List (List Char × List Char) :=
  [((("a" : String).toList), ((".b" : String).toList)),
   ((("b" : String).toList), (("Y" : String).toList))]

/-- Mapping for the non-CSS half of the C8 counterexample: distinct keys
(both of which the scanner can produce, `getElementById(` from a content
such as `class='getElementById('`), alphanumeric 8-character tokens, no
token equal to any key. -/
def mapC8html : List (List Char × List Char) :=
  [((("a" : String).toList), (("Ta0Ta0Ta" : String).toList)),
   ((("getElementById(" : String).toList), (("T2bT2bT2" : String).toList))]

/-- Claim C8 counterexample: under the claim's own conditions (pairwise
distinct keys, no token equal to any key) the iteration order of the
mapping DOES change the output, for the CSS rewriter (first half: the
token `.b` of `a` creates a site for key `b`) and even with scanner-shaped
keys and alphanumeric tokens for the non-CSS rewriter (second half: the
key `getElementById(` overlaps a `getElementById("a")` call site, so the
two substitutions fight over the same text). -/
theorem claim_C8_counterexample :
    ((mapC8css.map Prod.fst).Nodup ∧
      (∀ p ∈ mapC8css, ∀ q ∈ mapC8css, p.2 ≠ q.1) ∧
      mapC8css.Perm mapC8css.reverse ∧
      replace_classnames_ids_css ((".a\x7b" : String).toList) mapC8css ≠
        replace_classnames_ids_css ((".a\x7b" : String).toList) mapC8css.reverse) ∧
    ((mapC8html.map Prod.fst).Nodup ∧
      (∀ p ∈ mapC8html, ∀ q ∈ mapC8html, p.2 ≠ q.1) ∧
      mapC8html.Perm mapC8html.reverse ∧
      replace_classnames_ids (("class='getElementById(\"a\")'" : String).toList)
          mapC8html ≠
        replace_classnames_ids (("class='getElementById(\"a\")'" : String).toList)
          mapC8html.reverse) :=
  ⟨⟨by decide, by decide, by decide, by decide⟩,
   ⟨by decide, by decide, by decide, by decide⟩⟩

/-- Claim C8 amended: for the CSS rewriter, if the keys are pairwise
distinct, keys and tokens consist of CSS identifier characters, and no
token equals any key, then every iteration order of the mapping produces
the same output. -/
theorem claim_C8_amended_css_order_independence
    (m m' : List (List Char × List Char)) (hperm : m.Perm m')
    (hgood : goodCssMap m) (cs : List Char) :
    replace_classnames_ids_css cs m = replace_classnames_ids_css cs m' :=
  replace_css_perm m m' hperm hgood cs

/-- Mapping for the witness of the amended claim C8. -/
def mapC8w : List (List Char × List Char) :=
  [((("hero" : String).toList), (("AbCdEfGh" : String).toList)),
   ((("nav" : String).toList), (("Zz11Qq22" : String).toList))]

/-- Witness for the amended claim C8: a two-entry mapping applied in both
orders to a stylesheet that contains a site for each key. -/
theorem claim_C8_amended_witness :
    replace_classnames_ids_css ((".hero \x7b\n#nav," : String).toList) mapC8w =
      replace_classnames_ids_css ((".hero \x7b\n#nav," : String).toList)
        mapC8w.reverse :=
  claim_C8_amended_css_order_independence mapC8w mapC8w.reverse (by decide)
    ⟨by decide, by decide, by decide⟩ ((".hero \x7b\n#nav," : String).toList)

/-- Claim C9: the `class=` / `id=` patterns are not anchored at the start
of an attribute name: an attribute whose name merely ends in `id`, such as
`data-id`, has its quoted value captured as an id by the scanner and
rewritten by the rewriter exactly as for a real `id` attribute, for every
nonempty quote-free value `v` and every token. -/
theorem claim_C9_unanchored_attr (v tok : List Char) (hne : v ≠ [])
    (hq : ∀ c ∈ v, isQuoteC c = false) :
    scanA (mFindAttr idAttr)
      ((("data-" : String).toList) ++ (idAttr ++ '"' :: (v ++ ['"']))) = [v] ∧
    substA (mSubAttr idAttr v tok) none
      ((("data-" : String).toList) ++ (idAttr ++ '\'' :: (v ++ ['\'']))) =
      (("data-" : String).toList) ++ (idAttr ++ '"' :: (tok ++ ['"'])) ∧
    (find_classnames_ids (("<a data-id=\"x\">" : String).toList)).2 =
      [(("x" : String).toList)] ∧
    replace_classnames_ids (("<a data-id='x'>" : String).toList)
      [((("x" : String).toList), (("Tt00Tt00" : String).toList))] =
      (("<a data-id=\"Tt00Tt00\">" : String).toList) := by
  refine ⟨?_, ?_, by decide, by decide⟩
  · have hm : mFindAttr idAttr ('i' :: 'd' :: '=' :: '"' :: (v ++ ['"'])) =
        some (v, idAttr.length + v.length + 1) :=
      (mFindAttr_eq_some idAttr _ v _).mpr
        ⟨'"', '"', [], rfl, by decide, by decide, hne, hq, rfl⟩
    have hform : (("data-" : String).toList) ++ (idAttr ++ '"' :: (v ++ ['"'])) =
        'd' :: 'a' :: 't' :: 'a' :: '-' :: 'i' :: 'd' :: '=' :: '"' :: (v ++ ['"']) := rfl
    rw [hform]
    rw [scanA_cons_none _ 'd' _ (by simp [mFindAttr, idAttr, stripP])]
    rw [scanA_cons_none _ 'a' _ (by simp [mFindAttr, idAttr, stripP])]
    rw [scanA_cons_none _ 't' _ (by simp [mFindAttr, idAttr, stripP])]
    rw [scanA_cons_none _ 'a' _ (by simp [mFindAttr, idAttr, stripP])]
    rw [scanA_cons_none _ '-' _ (by simp [mFindAttr, idAttr, stripP])]
    rw [scanA_cons_some (mFindAttr idAttr) 'i' _ v _ hm]
    have hlen : ('d' :: '=' :: '"' :: (v ++ ['"'])).length ≤
        idAttr.length + v.length + 1 := by
      rw [show idAttr.length = 3 from by decide]
      simp
      omega
    rw [List.drop_eq_nil_of_le hlen]
    rfl
  · have hm2 : mSubAttr idAttr v tok (some '-')
        ('i' :: 'd' :: '=' :: '\'' :: (v ++ ['\''])) =
        some (idAttr ++ '"' :: (tok ++ ['"']), idAttr.length + v.length + 1) :=
      (mSubAttr_eq_some idAttr v tok (some '-') _ _ _).mpr
        ⟨'\'', '\'', [], rfl, by decide, by decide, rfl, rfl⟩
    have hform2 : (("data-" : String).toList) ++ (idAttr ++ '\'' :: (v ++ ['\''])) =
        'd' :: 'a' :: 't' :: 'a' :: '-' :: 'i' :: 'd' :: '=' :: '\'' :: (v ++ ['\'']) := rfl
    rw [hform2]
    rw [substA_cons_none _ none 'd' _ (by simp [mSubAttr, idAttr, stripP])]
    rw [substA_cons_none _ (some 'd') 'a' _ (by simp [mSubAttr, idAttr, stripP])]
    rw [substA_cons_none _ (some 'a') 't' _ (by simp [mSubAttr, idAttr, stripP])]
    rw [substA_cons_none _ (some 't') 'a' _ (by simp [mSubAttr, idAttr, stripP])]
    rw [substA_cons_none _ (some 'a') '-' _ (by simp [mSubAttr, idAttr, stripP])]
    rw [substA_cons_some _ (some '-') 'i' _ _ _ hm2]
    have hlen2 : ('d' :: '=' :: '\'' :: (v ++ ['\''])).length ≤
        idAttr.length + v.length + 1 := by
      rw [show idAttr.length = 3 from by decide]
      simp
      omega
    rw [List.drop_eq_nil_of_le hlen2]
    rw [substA_nil]
    simp [idAttr]

/-- Witness for claim C9 at the value `x` and the token `Tt00Tt00`. -/
theorem claim_C9_witness :
    scanA (mFindAttr idAttr)
      ((("data-" : String).toList) ++
        (idAttr ++ '"' :: ((("x" : String).toList) ++ ['"']))) =
      [(("x" : String).toList)] ∧
    substA (mSubAttr idAttr (("x" : String).toList) (("Tt00Tt00" : String).toList))
      none
      ((("data-" : String).toList) ++
        (idAttr ++ '\'' :: ((("x" : String).toList) ++ ['\'']))) =
      (("data-" : String).toList) ++
        (idAttr ++ '"' :: ((("Tt00Tt00" : String).toList) ++ ['"'])) ∧
    (find_classnames_ids (("<a data-id=\"x\">" : String).toList)).2 =
      [(("x" : String).toList)] ∧
    replace_classnames_ids (("<a data-id='x'>" : String).toList)
      [((("x" : String).toList), (("Tt00Tt00" : String).toList))] =
      (("<a data-id=\"Tt00Tt00\">" : String).toList) :=
  claim_C9_unanchored_attr (("x" : String).toList) (("Tt00Tt00" : String).toList)
    (by decide) (by decide)

/-- Claim C10: every identifier the CSS scanner extracts is a nonempty
string of ASCII letters, digits, underscore or hyphen that directly
follows `.` or `#` and directly precedes a trailing character, so no
identifier with any other character is ever extracted from CSS; and a
non-selector occurrence of that shape, such as the hex color in
`background: #ff0000 ;`, IS extracted as an id and rewritten. -/
theorem claim_C10_css_scanner_shape :
    (∀ (a : Char) (cs x : List Char), x ∈ scanCss a cs →
      (∃ l t rest, cs = l ++ a :: (x ++ t :: rest) ∧ isTrailC t = true) ∧
      x ≠ [] ∧ (∀ c ∈ x, isIdentC c = true)) ∧
    find_classnames_ids_css (("background: #ff0000 ;" : String).toList) =
      ([], [(("ff0000" : String).toList)]) ∧
    replace_classnames_ids_css (("background: #ff0000 ;" : String).toList)
      [((("ff0000" : String).toList), (("Hh00Hh00" : String).toList))] =
      (("background: #Hh00Hh00 ;" : String).toList) :=
  ⟨fun a cs x hx => scanCss_sound a cs.length cs (Nat.le_refl _) x hx,
   by decide, by decide⟩

/-- Witness for claim C10: the identifier `ff0000` extracted from the hex
color occurrence. -/
theorem claim_C10_witness :
    (∃ l t rest, (("background: #ff0000 ;" : String).toList) =
      l ++ '#' :: ((("ff0000" : String).toList) ++ t :: rest) ∧ isTrailC t = true) ∧
    (("ff0000" : String).toList) ≠ [] ∧
    (∀ c ∈ (("ff0000" : String).toList), isIdentC c = true) :=
  claim_C10_css_scanner_shape.1 '#' (("background: #ff0000 ;" : String).toList)
    (("ff0000" : String).toList) (by decide)

end RandomClass
